import Mathlib

/-!
Verification of the page-resident B+tree node codec, the copy-on-write
B+tree, the free list and the master page of the `database-from-scratch`
key-value store, against its natural-language specification.

The Rust sources are embedded shallowly:
* byte buffers (`[u8; N]` arrays) become total maps `Nat → Nat`; every
  write normalises to a byte with `% 256`, reads re-normalise, and the
  zero-initialised arrays of the source correspond to the constant-zero map;
* little-endian u16/u64 field accesses become `readLE`/`writeLE`;
* code that can panic (failed `assert!`, out-of-bounds indexing, `unwrap`)
  returns `Option`/`Except`, with `none` marking the panic;
* `u16` arithmetic never overflows on the states the claims quantify over,
  so it is carried in `Nat`; `saturating_sub` coincides with `Nat` subtraction;
* unbounded `while` loops and recursion over the page graph take explicit
  fuel; supplying enough fuel reproduces every terminating run of the source.
-/

namespace DBV

/-- A byte buffer: a total map from byte positions to values.  Reads apply
`% 256` so that every observation is a byte, matching `u8` cells. -/
abbrev Bytes := Nat → Nat

/-- The all-zero buffer (Rust arrays are zero-initialised). -/
def zeros : Bytes := fun _ => 0

/-- Read one byte. -/
def readU8 (b : Bytes) (pos : Nat) : Nat := b pos % 256

/-- Read an `n`-byte little-endian unsigned integer at `pos`
(`LittleEndian::read_u16` / `read_u64`). -/
def readLE (b : Bytes) (pos : Nat) : Nat → Nat
  | 0 => 0
  | n + 1 => readU8 b pos + 256 * readLE b (pos + 1) n

/-- Write an `n`-byte little-endian unsigned integer at `pos`
(`LittleEndian::write_u16` / `write_u64`). -/
def writeLE (b : Bytes) (pos n v : Nat) : Bytes :=
  fun i => if pos ≤ i ∧ i < pos + n then v / 256 ^ (i - pos) % 256 else b i

/-- Write the byte list `xs` starting at `pos` (`copy_from_slice` from an
owned vector such as a key or a value). -/
def writeBytesL (b : Bytes) (pos : Nat) (xs : List Nat) : Bytes :=
  fun i => if pos ≤ i ∧ i < pos + xs.length then xs.getD (i - pos) 0 % 256 else b i

/-- Read `len` bytes starting at `pos` as a list (`to_vec` of a slice). -/
def readBytesL (b : Bytes) (pos len : Nat) : List Nat :=
  (List.range len).map (fun j => readU8 b (pos + j))

/-- Copy `len` bytes from `src` at `spos` over `dst` at `dpos`
(`copy_from_slice` from another buffer). -/
def copyRange (dst : Bytes) (dpos : Nat) (src : Bytes) (spos len : Nat) : Bytes :=
  fun i => if dpos ≤ i ∧ i < dpos + len then src (spos + (i - dpos)) else dst i

/-- Rust lexicographic comparison of byte vectors (`Vec<u8>::cmp`): first
differing element decides, otherwise the shorter vector is smaller. -/
def bytesCmp : List Nat → List Nat → Ordering
  | [], [] => .eq
  | [], _ :: _ => .lt
  | _ :: _, [] => .gt
  | a :: as_, b :: bs => if a < b then .lt else if b < a then .gt else bytesCmp as_ bs

/-! ### Node codec constants (`b_node.rs`) -/

def HEADER : Nat := 4
def BTREE_PAGE_SIZE : Nat := 4096
def BTREE_MAX_KEY_SIZE : Nat := 1000
def BTREE_MAX_VAL_SIZE : Nat := 3000

/-- Tree-node type tag (`NodeType`): internal node (1) or leaf (2). -/
inductive NodeType where
  | Node
  | Leaf
deriving DecidableEq

def NodeType.value : NodeType → Nat
  | .Node => 1
  | .Leaf => 2

/-- A tree node: a byte buffer of physical capacity `2 * BTREE_PAGE_SIZE`
plus the logical capacity `actual_size` tracked by the source
(`BNode { data, actual_size }`). -/
structure BNode where
  data : Bytes
  actual_size : Nat

namespace BNode

/-- `set_header`: write type tag and key count into the first 4 bytes. -/
def set_header (n : BNode) (t : NodeType) (nkeys : Nat) : BNode :=
  { n with data := writeLE (writeLE n.data 0 2 t.value) 2 2 nkeys }

/-- `BNode::new`: fresh zeroed node of capacity `BTREE_PAGE_SIZE`. -/
def new (t : NodeType) (nkeys : Nat) : BNode :=
  set_header { data := zeros, actual_size := BTREE_PAGE_SIZE } t nkeys

/-- `BNode::new_with_size`: fresh zeroed node of the given capacity. -/
def new_with_size (t : NodeType) (nkeys size : Nat) : BNode :=
  set_header { data := zeros, actual_size := size } t nkeys

/-- `b_type`: decode the 2-byte type tag; `none` models the
`panic!("Invalid BNode type")` on any other tag. -/
def b_type (n : BNode) : Option NodeType :=
  match readLE n.data 0 2 with
  | 1 => some .Node
  | 2 => some .Leaf
  | _ => none

/-- `num_keys`: the 2-byte key count at offset 2. -/
def num_keys (n : BNode) : Nat := readLE n.data 2 2

/-- `get_ptr`: child pointer in slot `idx` (callers establish
`idx < num_keys`, which the source asserts). -/
def get_ptr (n : BNode) (idx : Nat) : Nat := readLE n.data (HEADER + 8 * idx) 8

/-- `set_ptr`. -/
def set_ptr (n : BNode) (idx v : Nat) : BNode :=
  { n with data := writeLE n.data (HEADER + 8 * idx) 8 v }

/-- `offset_pos`: byte position of the stored offset for 1-based `idx`. -/
def offset_pos (n : BNode) (idx : Nat) : Nat :=
  HEADER + 8 * n.num_keys + 2 * (idx - 1)

/-- `get_offset`: `0` at index 0, otherwise the stored 2-byte offset. -/
def get_offset (n : BNode) (idx : Nat) : Nat :=
  if idx = 0 then 0 else readLE n.data (n.offset_pos idx) 2

/-- `set_offset`. -/
def set_offset (n : BNode) (idx v : Nat) : BNode :=
  { n with data := writeLE n.data (n.offset_pos idx) 2 v }

/-- `kv_pos`: byte position of the `idx`-th KV cell. -/
def kv_pos (n : BNode) (idx : Nat) : Nat :=
  HEADER + 10 * n.num_keys + n.get_offset idx

/-- Key length of cell `idx` (the leading u16 of the cell). -/
def klen (n : BNode) (idx : Nat) : Nat := readLE n.data (n.kv_pos idx) 2

/-- Value length of cell `idx` (the second u16 of the cell). -/
def vlen (n : BNode) (idx : Nat) : Nat := readLE n.data (n.kv_pos idx + 2) 2

/-- `get_key`: copy out the key bytes of cell `idx`. -/
def get_key (n : BNode) (idx : Nat) : List Nat :=
  readBytesL n.data (n.kv_pos idx + 4) (n.klen idx)

/-- `get_val`: copy out the value bytes of cell `idx`. -/
def get_val (n : BNode) (idx : Nat) : List Nat :=
  readBytesL n.data (n.kv_pos idx + 4 + n.klen idx) (n.vlen idx)

/-- `num_bytes`: used size of the node.  The source also asserts
`num_bytes ≤ actual_size`; the `Option`-level operations below check that
condition at each call site of `num_bytes()`. -/
def num_bytes (n : BNode) : Nat := n.kv_pos n.num_keys

/-- `resize_buffer`: only changes the logical capacity. -/
def resize_buffer (n : BNode) (new_size : Nat) : BNode :=
  { n with actual_size := new_size }

/-- The binary-search loop of `node_lookup_le`.  `saturating_sub` on `u16`
agrees with `Nat` subtraction.  The fuel only bounds the recursion for the
kernel: starting from `low ≥ 1` the span `high + 1 - low` shrinks at every
step, so the fuel `node_lookup_le` supplies is never exhausted. -/
def lookup_loop (n : BNode) (key : List Nat) : Nat → Nat → Nat → Nat → Nat
  | 0, _, _, found => found
  | fuel + 1, low, high, found =>
    if low ≤ high then
      let mid := (low + high) / 2
      match bytesCmp (n.get_key mid) key with
      | .lt | .eq => lookup_loop n key fuel (mid + 1) high mid
      | .gt => lookup_loop n key fuel low (mid - 1) found
    else found

/-- `node_lookup_le`: largest index whose key is `≤ key`, found by binary
search over indices `1..=num_keys-1` with initial answer `0`. -/
def node_lookup_le (n : BNode) (key : List Nat) : Nat :=
  lookup_loop n key (n.num_keys + 1) 1 (n.num_keys - 1) 0

/-- `node_append_range`: bulk-copy `cnt` pointers, shifted offsets and the
contiguous KV byte block from `old` into `self`. -/
def node_append_range (self : BNode) (old : BNode) (dst_new src_old cnt : Nat) : BNode :=
  if cnt = 0 then self
  else
    -- pointers
    let s1 := (List.range cnt).foldl
      (fun nd i => nd.set_ptr (dst_new + i) (old.get_ptr (src_old + i))) self
    -- offsets, for indices dst_new+1 ..= dst_new+cnt
    let dst_begin := s1.get_offset dst_new
    let src_begin := old.get_offset src_old
    let s2 := (List.range cnt).foldl
      (fun nd i =>
        nd.set_offset (dst_new + (i + 1))
          (dst_begin + old.get_offset (src_old + (i + 1)) - src_begin)) s1
    -- the contiguous KV bytes
    let bg := old.kv_pos src_old
    let ed := old.kv_pos (src_old + cnt)
    { s2 with data := copyRange s2.data (s2.kv_pos dst_new) old.data bg (ed - bg) }

/-- `node_append_kv`: write pointer, cell bytes, and the next offset. -/
def node_append_kv (self : BNode) (idx ptr : Nat) (key val : List Nat) : BNode :=
  let s1 := self.set_ptr idx ptr
  let pos := s1.kv_pos idx
  let s2 := { s1 with data := writeLE s1.data pos 2 key.length }
  let s3 := { s2 with data := writeLE s2.data (pos + 2) 2 val.length }
  let s4 := { s3 with data := writeBytesL s3.data (pos + 4) key }
  let s5 := { s4 with data := writeBytesL s4.data (pos + 4 + key.length) val }
  s5.set_offset (idx + 1) (s5.get_offset idx + 4 + (key.length + val.length))

/-- `leaf_insert`: leaf with cell `(key, val)` inserted at `idx`. -/
def leaf_insert (self : BNode) (idx : Nat) (key val : List Nat) : BNode :=
  let old_num_keys := self.num_keys
  let n0 := new_with_size .Leaf (old_num_keys + 1) (2 * BTREE_PAGE_SIZE)
  let n1 := n0.node_append_range self 0 0 idx
  let n2 := n1.node_append_kv idx 0 key val
  n2.node_append_range self (idx + 1) idx (old_num_keys - idx)

/-- `leaf_update`: leaf with cell `idx` replaced by `(key, val)`. -/
def leaf_update (self : BNode) (idx : Nat) (key val : List Nat) : BNode :=
  let old_num_keys := self.num_keys
  let n0 := new_with_size .Leaf old_num_keys (2 * BTREE_PAGE_SIZE)
  let n1 := n0.node_append_range self 0 0 idx
  let n2 := n1.node_append_kv idx 0 key val
  n2.node_append_range self (idx + 1) (idx + 1) (old_num_keys - idx - 1)

/-- `leaf_delete`: leaf with cell `idx` removed. -/
def leaf_delete (self : BNode) (idx : Nat) : BNode :=
  let old_num_keys := self.num_keys
  let n0 := new .Leaf (old_num_keys - 1)
  let n1 := n0.node_append_range self 0 0 idx
  n1.node_append_range self idx (idx + 1) (old_num_keys - idx - 1)

/-- `node_merge`: concatenate two nodes; `none` models the panic of
`b_type()` on an invalid tag. -/
def node_merge (self right : BNode) : Option BNode :=
  let left_num_keys := self.num_keys
  let right_num_keys := right.num_keys
  match self.b_type with
  | none => none
  | some t =>
    let n0 := new t (left_num_keys + right_num_keys)
    let n1 := n0.node_append_range self 0 0 left_num_keys
    some (n1.node_append_range right left_num_keys 0 right_num_keys)

/-- `calc_num_left_bytes` in `split2`: size of the node holding the first
`n_left` cells of `old_node`. -/
def splitLeftBytes (n : BNode) (n_left : Nat) : Nat :=
  HEADER + 10 * n_left + n.get_offset n_left

/-- `calc_num_right_bytes` in `split2`: size of the node holding the
remaining cells. -/
def splitRightBytes (n : BNode) (n_left : Nat) : Nat :=
  n.num_bytes - splitLeftBytes n n_left + HEADER

/-- First `while` loop of `split2`: decrement `n_left` while the left half
exceeds a page.  Terminates because `splitLeftBytes n 0 = HEADER`. -/
def split2_dec (n : BNode) : Nat → Nat
  | 0 => 0
  | m + 1 => if splitLeftBytes n (m + 1) > BTREE_PAGE_SIZE then split2_dec n m else m + 1

/-- Second `while` loop of `split2`: increment `n_left` while the right half
exceeds a page.  The source loop is unbounded; on well-formed nodes it stops
at an index `< num_keys`, and the fuel below always covers that, so `none`
only arises on runs where the source would walk off the offset table and
panic on out-of-bounds indexing. -/
def split2_inc (n : BNode) : Nat → Nat → Option Nat
  | 0, _ => none
  | fuel + 1, m =>
    if splitRightBytes n m > BTREE_PAGE_SIZE then split2_inc n fuel (m + 1) else some m

/-- `split2`: split an oversized node in two; the right half always fits a
page.  `none` models any failed `assert!` (including the one inside
`num_bytes()`) or a run of the increment loop past the offset table. -/
def split2E (n : BNode) (left_size : Nat) : Option (BNode × BNode) :=
  if n.num_keys < 2 then none                        -- assert!(num_keys >= 2)
  else
    let m1 := split2_dec n (n.num_keys / 2)
    if m1 < 1 then none                              -- assert!(n_left >= 1)
    else if n.num_bytes > n.actual_size then none    -- assert inside num_bytes()
    else
      match split2_inc n (n.num_keys + 1 - m1) m1 with
      | none => none
      | some m2 =>
        if n.num_keys ≤ m2 then none                 -- assert!(n_left < num_keys)
        else
          match n.b_type with
          | none => none                             -- panic on invalid type tag
          | some t =>
            let n_right := n.num_keys - m2
            let left := (new_with_size t m2 left_size).node_append_range n 0 0 m2
            let right :=
              (new_with_size t n_right BTREE_PAGE_SIZE).node_append_range n 0 m2 n_right
            if right.num_bytes > right.actual_size then none   -- assert in num_bytes()
            else if right.num_bytes > BTREE_PAGE_SIZE then none -- assert!(right fits)
            else some (left, right)

/-- `split3`: split a possibly oversized node into 1 to 3 nodes, each meant
to fit on a page.  `none` models any failed `assert!` along the way. -/
def split3E (n : BNode) : Option (Nat × List BNode) :=
  if n.num_bytes > n.actual_size then none           -- assert inside num_bytes()
  else if n.num_bytes ≤ BTREE_PAGE_SIZE then
    some (1, [n.resize_buffer BTREE_PAGE_SIZE])
  else
    match split2E n (2 * BTREE_PAGE_SIZE) with
    | none => none
    | some (left, right) =>
      if left.num_bytes > left.actual_size then none -- assert inside num_bytes()
      else if left.num_bytes ≤ BTREE_PAGE_SIZE then
        some (2, [left.resize_buffer BTREE_PAGE_SIZE, right])
      else
        match split2E left BTREE_PAGE_SIZE with
        | none => none
        | some (left_left, middle) =>
          if left_left.num_bytes > left_left.actual_size then none
          else if left_left.num_bytes > BTREE_PAGE_SIZE then none
            -- assert!(left_left_node.num_bytes() <= BTREE_PAGE_SIZE)
          else some (3, [left_left, middle, right])

end BNode

/-! ### Master page (`master_page.rs` / `kv_store/mod.rs`) -/

/-- ASCII bytes of the signature constant `"BuildYourOwnDB00"`. -/
def DB_SIG : List Nat :=
  [66, 117, 105, 108, 100, 89, 111, 117, 114, 79, 119, 110, 68, 66, 48, 48]

/-- Decoded master page. -/
structure MasterPage where
  btree_root : Nat
  total_used_pages : Nat
  free_list_head : Nat
deriving DecidableEq

/-- The part of the memory map `master_load` consults: the file size in
bytes and the first mapped chunk. -/
structure MMapModel where
  file : Nat
  chunk0 : Bytes

/-- `MasterPage::master_load`: parse and validate page 0.  The `bad` chain
is the source's boolean chain, written as one decidable condition. -/
def master_load (mmap : MMapModel) : Except String MasterPage :=
  if mmap.file = 0 then
    -- empty file, the master page will be created on the first write
    .ok { btree_root := 0, total_used_pages := 1, free_list_head := 0 }
  else
    let data := mmap.chunk0
    let btree_root := readLE data 16 8
    let total_used_pages := readLE data 24 8
    let free_list_head := readLE data 32 8
    if readBytesL data 0 16 ≠ DB_SIG then .error "bad signature"
    else if ¬ (1 ≤ total_used_pages ∧ total_used_pages ≤ mmap.file / BTREE_PAGE_SIZE)
        ∨ total_used_pages ≤ btree_root
        ∨ total_used_pages ≤ free_list_head
        ∨ free_list_head < 1
        ∨ free_list_head = btree_root then .error "bad master page"
    else .ok { btree_root := btree_root, total_used_pages := total_used_pages,
               free_list_head := free_list_head }

/-- Success predicate of `master_load` on a non-empty file. -/
def masterLoadOk (mmap : MMapModel) : Prop :=
  ∃ mp, master_load mmap = .ok mp

/-- The load invariant exactly as the specification words it (for claim C2):
signature, `1 ≤ total_pages ≤ file_size / PAGE_SIZE`, in-range roots, and
`free_list_head = 0 ∨ free_list_head ≠ btree_root`. -/
def specLoadInvariant (mmap : MMapModel) : Prop :=
  readBytesL mmap.chunk0 0 16 = DB_SIG
  ∧ 1 ≤ readLE mmap.chunk0 24 8
  ∧ readLE mmap.chunk0 24 8 ≤ mmap.file / BTREE_PAGE_SIZE
  ∧ readLE mmap.chunk0 16 8 < readLE mmap.chunk0 24 8
  ∧ readLE mmap.chunk0 32 8 < readLE mmap.chunk0 24 8
  ∧ (readLE mmap.chunk0 32 8 = 0 ∨ readLE mmap.chunk0 32 8 ≠ readLE mmap.chunk0 16 8)

/-! ### Page manager for the tree (`BTreePageManager`)

The tree is generic over a page manager trait with `page_get`, `page_new`
and `page_del`.  We instantiate it with the canonical in-memory manager of
the repository's own test harness: a map from page numbers to page bytes,
with `page_new` storing a fresh nonzero number (the harness draws fresh
numbers at random; we draw them from a counter, which the tree never
inspects), asserting the node fits one page. -/

/-- Association-list lookup for the page map. -/
def assocGet {α : Type} : List (Nat × α) → Nat → Option α
  | [], _ => none
  | (k, v) :: rest, key => if k = key then some v else assocGet rest key

/-- The in-memory page manager: stored pages plus the fresh-number counter. -/
structure PageManager where
  pages : List (Nat × BNode)
  next_ptr : Nat

namespace PageManager

/-- A fresh empty manager; counters start at 1 so page numbers are nonzero. -/
def empty : PageManager := { pages := [], next_ptr := 1 }

/-- `page_get`: look the page up and re-decode it (`BNode::from` asserts a
valid type tag); `none` models the `unwrap` panic on a missing page or the
decode panic. -/
def page_get (pm : PageManager) (ptr : Nat) : Option BNode :=
  match assocGet pm.pages ptr with
  | none => none
  | some nd => if (nd.b_type).isSome then some nd else none

/-- `page_new`: store a page under a fresh number.  The checks model the
assertions `num_bytes() <= BTREE_PAGE_SIZE` (with the inner
`num_bytes <= actual_size` assert) and `get_data()`'s
`actual_size == BTREE_PAGE_SIZE`; storage keeps only the first page of the
buffer, as `get_data()` copies exactly one page. -/
def page_new (pm : PageManager) (node : BNode) : Option (Nat × PageManager) :=
  if node.num_bytes > node.actual_size then none
  else if node.num_bytes > BTREE_PAGE_SIZE then none
  else if node.actual_size ≠ BTREE_PAGE_SIZE then none
  else
    let stored : BNode :=
      { data := fun i => if i < BTREE_PAGE_SIZE then node.data i else 0,
        actual_size := BTREE_PAGE_SIZE }
    some (pm.next_ptr, { pages := (pm.next_ptr, stored) :: pm.pages,
                         next_ptr := pm.next_ptr + 1 })

/-- `page_del`: remove the page. -/
def page_del (pm : PageManager) (ptr : Nat) : PageManager :=
  { pm with pages := pm.pages.filter (fun e => e.1 ≠ ptr) }

end PageManager

/-! ### The copy-on-write B+tree (`b_tree/mod.rs`) -/

/-- `InsertMode`: upsert, update-only ("update existing keys") or
insert-only ("only add new keys"). -/
inductive InsertMode where
  | Upsert
  | UpdateOnly
  | InsertOnly
deriving DecidableEq

/-- `InsertRequest`: the write-back `added` flag plus key, value, mode. -/
structure InsertRequest where
  added : Bool
  key : List Nat
  val : List Nat
  mode : InsertMode

/-- `InsertRequest::new`. -/
def InsertRequest.new (key val : List Nat) : InsertRequest :=
  { added := false, key := key, val := val, mode := .Upsert }

/-- The tree handle: root page number plus its page manager. -/
structure BTreeS where
  root : Nat
  pm : PageManager

mutual

/-- `BTree::tree_insert`: insert a KV into a node; `some none` is the
source's `None` return (no-op), the inner `some node` an oversized result
node.  The page manager and the request (its `added` flag) are threaded
explicitly; the outermost `none` models a panic or exhausted fuel. -/
def tree_insertF : Nat → PageManager → BNode → InsertRequest →
    Option (Option BNode × PageManager × InsertRequest)
  | 0, _, _, _ => none
  | fuel + 1, pm, node, req =>
    let idx := node.node_lookup_le req.key
    match node.b_type with
    | none => none
    | some .Leaf =>
      if node.num_keys ≤ idx then none             -- assert in get_key
      else
        match bytesCmp (node.get_key idx) req.key with
        | .eq =>
          if req.mode = .InsertOnly then some (none, pm, req)
          else if bytesCmp (node.get_val idx) req.val = .eq then some (none, pm, req)
          else some (some (node.leaf_update idx req.key req.val), pm, req)
        | _ =>
          if req.mode = .UpdateOnly then some (none, pm, req)
          else some (some (node.leaf_insert (idx + 1) req.key req.val), pm,
                     { req with added := true })
    | some .Node => node_insertF fuel pm node idx req

/-- `BTree::node_insert`: recurse into the kid at `idx`, then free the old
kid page, split the result and rebuild the parent. -/
def node_insertF : Nat → PageManager → BNode → Nat → InsertRequest →
    Option (Option BNode × PageManager × InsertRequest)
  | 0, _, _, _, _ => none
  | fuel + 1, pm, node, idx, req =>
    if node.num_keys ≤ idx then none               -- assert in get_ptr
    else
      let kid_ptr := node.get_ptr idx
      match pm.page_get kid_ptr with
      | none => none
      | some kid =>
        match tree_insertF fuel pm kid req with
        | none => none
        | some (none, pm1, req1) => some (none, pm1, req1)   -- the `?` operator
        | some (some kid1, pm1, req1) =>
          let pm2 := pm1.page_del kid_ptr
          match kid1.split3E with
          | none => none
          | some (_, splited) =>
            match node_replace_kid_nF pm2 (2 * BTREE_PAGE_SIZE) node idx splited with
            | none => none
            | some (new_node, pm3) => some (some new_node, pm3, req1)

/-- The loop of `node_replace_kid_n` (and of the root rebuild in
`insert_exec`): append each new child, allocating its page and using its
first key as separator. -/
def append_kids_loop : List BNode → Nat → BNode → PageManager →
    Option (BNode × PageManager)
  | [], _, acc, pm => some (acc, pm)
  | kid :: rest, at_idx, acc, pm =>
    let first_key := kid.get_key 0
    match pm.page_new kid with
    | none => none
    | some (ptr, pm1) =>
      append_kids_loop rest (at_idx + 1) (acc.node_append_kv at_idx ptr first_key []) pm1

/-- `BTree::node_replace_kid_n`: replace child `idx` of `old_node` with the
1 to 3 `new_children`. -/
def node_replace_kid_nF (pm : PageManager) (new_node_size : Nat) (old_node : BNode)
    (idx : Nat) (new_children : List BNode) : Option (BNode × PageManager) :=
  let num_new := new_children.length
  let old_num_keys := old_node.num_keys
  let n0 := BNode.new_with_size .Node (old_num_keys - 1 + num_new) new_node_size
  let n1 := n0.node_append_range old_node 0 0 idx
  match append_kids_loop new_children idx n1 pm with
  | none => none
  | some (n2, pm1) =>
    some (n2.node_append_range old_node (idx + num_new) (idx + 1)
            (old_num_keys - (idx + 1)), pm1)

end

/-- `BTree::insert_exec`: the public write entry point. -/
def insert_execF (fuel : Nat) (tree : BTreeS) (req : InsertRequest) :
    Option (InsertRequest × BTreeS) :=
  if req.key = [] then none                          -- assert!(!key.is_empty())
  else if BTREE_MAX_KEY_SIZE < req.key.length then none
  else if BTREE_MAX_VAL_SIZE < req.val.length then none
  else if tree.root = 0 then
    -- first insert: leaf with the dummy sentinel and the new cell
    let root0 := BNode.new .Leaf 2
    let root1 := root0.node_append_kv 0 0 [] []
    let root2 := root1.node_append_kv 1 0 req.key req.val
    match tree.pm.page_new root2 with
    | none => none
    | some (ptr, pm1) => some ({ req with added := true }, { root := ptr, pm := pm1 })
  else
    match tree.pm.page_get tree.root with
    | none => none
    | some node =>
      match tree_insertF fuel tree.pm node req with
      | none => none
      | some (none, pm1, req1) => some (req1, { tree with pm := pm1 })
      | some (some updated, pm1, req1) =>
        let pm2 := pm1.page_del tree.root
        match updated.split3E with
        | none => none
        | some (n_split, splitted) =>
          if 1 < n_split then
            -- the root was split, add a new level
            let root0 := BNode.new .Node n_split
            match append_kids_loop splitted 0 root0 pm2 with
            | none => none
            | some (root1, pm3) =>
              match pm3.page_new root1 with
              | none => none
              | some (ptr, pm4) => some (req1, { root := ptr, pm := pm4 })
          else
            match splitted with
            | [] => none
            | first :: _ =>
              match pm2.page_new first with
              | none => none
              | some (ptr, pm3) => some (req1, { root := ptr, pm := pm3 })

/-- `BTree::insert`: upsert wrapper, returns the `added` flag. -/
def insertF (fuel : Nat) (tree : BTreeS) (key val : List Nat) :
    Option (Bool × BTreeS) :=
  match insert_execF fuel tree (InsertRequest.new key val) with
  | none => none
  | some (req, tree1) => some (req.added, tree1)

/-- The descent loop of `BTree::get_value`.  `some none` is "absent". -/
def get_value_loop : Nat → PageManager → BNode → List Nat →
    Option (Option (List Nat))
  | 0, _, _, _ => none
  | fuel + 1, pm, node, key =>
    let idx := node.node_lookup_le key
    match node.b_type with
    | none => none
    | some .Leaf =>
      if node.num_keys ≤ idx then none             -- assert in get_key
      else
        match bytesCmp (node.get_key idx) key with
        | .eq => some (some (node.get_val idx))
        | _ => some none
    | some .Node =>
      if node.num_keys ≤ idx then none             -- assert in get_ptr
      else
        match pm.page_get (node.get_ptr idx) with
        | none => none
        | some kid => get_value_loop fuel pm kid key

/-- `BTree::get_value`: point lookup; `some none` is "absent",
`none` a panic (failed key-length assert, missing page, bad tag). -/
def get_valueF (fuel : Nat) (tree : BTreeS) (key : List Nat) :
    Option (Option (List Nat)) :=
  if key = [] then none                             -- assert!(!key.is_empty())
  else if BTREE_MAX_KEY_SIZE < key.length then none
  else if tree.root = 0 then some none
  else
    match tree.pm.page_get tree.root with
    | none => none
    | some node => get_value_loop fuel tree.pm node key

/-! ### Iterator (`btree_iter.rs`) and `seek` -/

/-- `BTreeIterator`: the parallel stacks of nodes on the path and the index
selected in each (the tree reference is passed separately as its page
manager). -/
structure BTreeIterator where
  path : List BNode
  positions : List Nat
deriving Inhabited

/-- `BTreeIterator::deref`: key and value at the leaf position.  `none`
models the panic of `positions.len() - 1` on an empty stack, of the
`path[..]` indexing, or of `get_key`'s bound assert. -/
def derefE (it : BTreeIterator) : Option (List Nat × List Nat) :=
  match it.positions.length with
  | 0 => none
  | lv + 1 =>
    match it.path.get? lv, it.positions.get? lv with
    | some node, some p =>
      if node.num_keys ≤ p then none
      else some (node.get_key p, node.get_val p)
    | _, _ => none

/-- Common tail of `nextIter`: when `level` is not the leaf level, descend
into the kid just selected at `level` and reset the level below to its
first key. -/
def refill_first (pm : PageManager) (it : BTreeIterator) (level : Nat) :
    Option (Bool × BTreeIterator) :=
  if level + 1 < it.positions.length then
    match it.path.get? level, it.positions.get? level with
    | some node, some p =>
      match node.b_type with
      | some .Node =>
        if node.num_keys ≤ p then none             -- assert in get_ptr
        else
          match pm.page_get (node.get_ptr p) with
          | none => none
          | some child =>
            some (true, { path := it.path.set (level + 1) child,
                          positions := it.positions.set (level + 1) 0 })
      | _ => none                                   -- assert!(b_type == Node)
    | _, _ => none
  else some (true, it)

/-- `BTreeIterator::nextIter`: move forward at `level`, recursing upward at
node ends; `some (false, it)` reports a failed move with the state
unchanged.  `num_keys() - 1` underflows on `u16` when a node has no keys, so
that case is a panic (`none`). -/
def nextIterE (pm : PageManager) : BTreeIterator → Nat → Option (Bool × BTreeIterator)
  | it, level =>
    match it.path.get? level, it.positions.get? level with
    | some node, some p =>
      if node.num_keys = 0 then none
      else if p < node.num_keys - 1 then
        refill_first pm { it with positions := it.positions.set level (p + 1) } level
      else
        match level with
        | 0 => some (false, it)
        | lv + 1 =>
          match nextIterE pm it lv with
          | none => none
          | some (false, it1) => some (false, it1)
          | some (true, it1) => refill_first pm it1 (lv + 1)
    | _, _ => none

/-- `BTreeIterator::next`. -/
def nextE (pm : PageManager) (it : BTreeIterator) : Option (Bool × BTreeIterator) :=
  match it.positions.length with
  | 0 => none                                       -- positions.len() - 1 underflow
  | lv + 1 => nextIterE pm it lv

/-- Common tail of `prevIter`: descend into the kid and select its last key;
`num_keys() - 1` underflow on an empty kid is a panic. -/
def refill_last (pm : PageManager) (it : BTreeIterator) (level : Nat) :
    Option (Bool × BTreeIterator) :=
  if level + 1 < it.positions.length then
    match it.path.get? level, it.positions.get? level with
    | some node, some p =>
      match node.b_type with
      | some .Node =>
        if node.num_keys ≤ p then none             -- assert in get_ptr
        else
          match pm.page_get (node.get_ptr p) with
          | none => none
          | some child =>
            if child.num_keys = 0 then none
            else
              some (true, { path := it.path.set (level + 1) child,
                            positions := it.positions.set (level + 1)
                              (child.num_keys - 1) })
      | _ => none
    | _, _ => none
  else some (true, it)

/-- `BTreeIterator::prevIter`. -/
def prevIterE (pm : PageManager) : BTreeIterator → Nat → Option (Bool × BTreeIterator)
  | it, level =>
    match it.path.get? level, it.positions.get? level with
    | some _, some p =>
      if 0 < p then
        refill_last pm { it with positions := it.positions.set level (p - 1) } level
      else
        match level with
        | 0 => some (false, it)
        | lv + 1 =>
          match prevIterE pm it lv with
          | none => none
          | some (false, it1) => some (false, it1)
          | some (true, it1) => refill_last pm it1 (lv + 1)
    | _, _ => none

/-- `BTreeIterator::prev`. -/
def prevE (pm : PageManager) (it : BTreeIterator) : Option (Bool × BTreeIterator) :=
  match it.positions.length with
  | 0 => none                                       -- positions.len() - 1 underflow
  | lv + 1 => prevIterE pm it lv

/-- The comparators of `seek` (`CmpOption`). -/
inductive CmpOption where
  | GT
  | GE
  | LT
  | LE
deriving DecidableEq

/-- `BTree::cmp_ok`: does `key` satisfy the comparator against `reference`?
Rust `Vec` ordering is the lexicographic `bytesCmp`. -/
def cmp_ok (key : List Nat) (compare : CmpOption) (reference : List Nat) : Bool :=
  match compare with
  | .GT => bytesCmp key reference = .gt
  | .GE => bytesCmp key reference ≠ .lt
  | .LT => bytesCmp key reference = .lt
  | .LE => bytesCmp key reference ≠ .gt

/-- The descent loop of `BTree::seek_le`, pushing each visited node and its
`lookup_le` index. -/
def seek_le_loop (pm : PageManager) (key : List Nat) :
    Nat → Nat → List BNode → List Nat → Option BTreeIterator
  | _, 0, path, positions => some { path := path, positions := positions }
  | 0, _ + 1, _, _ => none
  | fuel + 1, ptr, path, positions =>
    match pm.page_get ptr with
    | none => none
    | some node =>
      match node.b_type with
      | none => none
      | some t =>
        let idx := node.node_lookup_le key
        if t = .Node ∧ node.num_keys ≤ idx then none   -- assert in get_ptr
        else
          let ptr1 := if t = .Node then node.get_ptr idx else 0
          seek_le_loop pm key fuel ptr1 (path ++ [node]) (positions ++ [idx])

/-- `BTree::seek_le`: walk the tree once, recording path and positions. -/
def seek_leE (fuel : Nat) (tree : BTreeS) (key : List Nat) : Option BTreeIterator :=
  seek_le_loop tree.pm key fuel tree.root [] []

/-- `BTree::seek`: `seek_le` plus at most one `next`/`prev` correction; the
correction's success flag is discarded, as in the source. -/
def seekE (fuel : Nat) (tree : BTreeS) (key : List Nat) (compare : CmpOption) :
    Option BTreeIterator :=
  match seek_leE fuel tree key with
  | none => none
  | some iter =>
    match compare with
    | .LE => some iter
    | _ =>
      match derefE iter with
      | none => none                                -- deref panics on empty path
      | some (current_key, _) =>
        if cmp_ok current_key compare key then some iter
        else
          match compare with
          | .GE | .GT =>
            match nextE tree.pm iter with
            | none => none
            | some (_, it1) => some it1
          | .LE | .LT =>
            match prevE tree.pm iter with
            | none => none
            | some (_, it1) => some it1

/-! ### The public `KV::get` (`kv_store/mod.rs`)

`KV::get` forwards the tree lookup and has return type
`Result<Vec<u8>, ()>`: the only way it can report an absent key is
`Err(())`, and the repository's own integration tests
(`test_kv` in `kv_store/mod.rs`) assert `result.is_err()` for deleted keys.
We model it as that `Option → Result` adaptation over `get_value`. -/
def kv_getF (fuel : Nat) (tree : BTreeS) (key : List Nat) :
    Option (Except Unit (List Nat)) :=
  match get_valueF fuel tree key with
  | none => none
  | some (some v) => some (.ok v)
  | some none => some (.error ())

/-! ### Concrete inputs used by counterexamples and witnesses -/

/-- Master-page bytes with valid signature, `btree_root = 0`,
`total_used_pages = 2`, `free_list_head = 0`. -/
def c2data : Bytes :=
  writeBytesL (writeLE (writeLE (writeLE zeros 16 8 0) 24 8 2) 32 8 0) 0 DB_SIG

/-- Master-page bytes with valid signature, `btree_root = 1`,
`total_used_pages = 3`, `free_list_head = 2`. -/
def c2good : Bytes :=
  writeBytesL (writeLE (writeLE (writeLE zeros 16 8 1) 24 8 3) 32 8 2) 0 DB_SIG

/-- The empty database: no root, empty page store. -/
def emptyTree : BTreeS := { root := 0, pm := PageManager.empty }

/-- Concrete 5-key node (keys `[0] [1] [2] [3] [4]`), mirroring the
repository's own `node_lookup_le` unit test. -/
def wC7 : BNode :=
  (((((BNode.new .Leaf 5).node_append_kv 0 0 [0] []).node_append_kv 1 0
    [1] []).node_append_kv 2 0 [2] []).node_append_kv 3 0
    [3] []).node_append_kv 4 0 [4] []

/-- A one-entry leaf (just the sentinel), as left behind by deleting the
last user key. -/
def wC8node : BNode := (BNode.new .Leaf 1).node_append_kv 0 0 [] []

/-- The iterator positioned on that leaf's only entry: simultaneously the
first and the last entry of its tree. -/
def wC8 : BTreeIterator := { path := [wC8node], positions := [0] }

/-! ### Node well-formedness and logical content -/

/-- Offset-table well-formedness: each stored offset extends the previous
one by exactly the size of its cell (`4 + klen + vlen`), which is how every
node the tree writes is laid out. -/
def BNode.wf_offsets (n : BNode) : Prop :=
  ∀ i, i < n.num_keys →
    n.get_offset (i + 1) = n.get_offset i + 4 + n.klen i + n.vlen i

/-- The per-cell size limits (`klen ≤ 1000`, `vlen ≤ 3000`). -/
def BNode.cells_bounded (n : BNode) : Prop :=
  ∀ i, i < n.num_keys →
    n.klen i ≤ BTREE_MAX_KEY_SIZE ∧ n.vlen i ≤ BTREE_MAX_VAL_SIZE

/-- The logical content of cell `i`: child pointer, key bytes, value bytes. -/
def BNode.cell (n : BNode) (i : Nat) : Nat × List Nat × List Nat :=
  (n.get_ptr i, n.get_key i, n.get_val i)

/-- All cells of the node, in order. -/
def BNode.cells (n : BNode) : List (Nat × List Nat × List Nat) :=
  (List.range n.num_keys).map n.cell

/-- The byte image of a 4-key leaf with cells
`(klen, vlen) = (1000, 986), (1000, 1079), (1000, 3000), (k3, 0)`,
in the exact `b_node.rs` layout (header, 4 pointer slots, 4 offset slots
`1990, 4073, 8077, 8081 + k3`, then the `klen|vlen|key|val` cells at
kv-base 44).  The keys repeat the bytes `97, 98, 99, 100`; the values the
bytes `1, 2, 3`. -/
def wC6data (k3 : Nat) : Bytes := fun p =>
  if p = 0 then 2
  else if p = 2 then 4
  else if p < 36 then 0
  else if p = 36 then 198
  else if p = 37 then 7
  else if p = 38 then 233
  else if p = 39 then 15
  else if p = 40 then 141
  else if p = 41 then 31
  else if p = 42 then (8081 + k3) % 256
  else if p = 43 then (8081 + k3) / 256
  else if p = 44 then 232
  else if p = 45 then 3
  else if p = 46 then 218
  else if p = 47 then 3
  else if p < 1048 then 97
  else if p < 2034 then 1
  else if p = 2034 then 232
  else if p = 2035 then 3
  else if p = 2036 then 55
  else if p = 2037 then 4
  else if p < 3038 then 98
  else if p < 4117 then 2
  else if p = 4117 then 232
  else if p = 4118 then 3
  else if p = 4119 then 184
  else if p = 4120 then 11
  else if p < 5121 then 99
  else if p < 8121 then 3
  else if p = 8121 then k3 % 256
  else if p = 8122 then k3 / 256
  else if p = 8123 then 0
  else if p = 8124 then 0
  else if p < 8125 + k3 then 100
  else 0

/-- The oversized node of the C6 counterexample: four cells within the
key/value limits whose total size is exactly `2 * BTREE_PAGE_SIZE`
(`num_bytes = 4 + 10 * 4 + (1990 + 2083 + 4004 + 71) = 8192`). -/
def wC6bad : BNode :=
  { data := wC6data 67, actual_size := 2 * BTREE_PAGE_SIZE }

/-- Shorthand for the node built by a single `node_append_range` from `old`
into a fresh node, the shape `split2` produces its halves with. -/
def appendFresh (old : BNode) (t : NodeType) (sz src cnt : Nat) : BNode :=
  (BNode.new_with_size t cnt sz).node_append_range old 0 src cnt

/-- The witness node for the amended C6: the same four cells with the last
key 3 bytes shorter, total `num_bytes = 2 * BTREE_PAGE_SIZE - 3`. -/
def wC6good : BNode :=
  { data := wC6data 64, actual_size := 2 * BTREE_PAGE_SIZE }

/-! ### Free list (`free_list/fl_node.rs`, `free_list/page_manager.rs`,
`free_list/mod.rs`) -/

def FL_NODE_TYPE : Nat := 3
def FL_HEADER : Nat := 4 + 8 + 8
def MAX_FREE_LIST_IN_PAGE : Nat := (BTREE_PAGE_SIZE - FL_HEADER) / 8
def U64_SIZE : Nat := 8

/-- A free-list node is one page of bytes in the layout
`| type 2B | size 2B | total 8B | next 8B | pointers size * 8B |`. -/
def FLNode : Type := Bytes

/-- `FLNode::size`. -/
def FLNode.size (n : FLNode) : Nat := readLE n 2 2

/-- `FLNode::total` (the header field, not the whole-list count). -/
def FLNode.fl_total (n : FLNode) : Nat := readLE n 4 U64_SIZE

/-- `FLNode::next`. -/
def FLNode.next (n : FLNode) : Nat := readLE n 12 U64_SIZE

/-- `FLNode::new(size, next)`: a zero page with `set_header` applied. -/
def FLNode.new (size next : Nat) : FLNode :=
  writeLE (writeLE (writeLE zeros 0 2 FL_NODE_TYPE) 2 2 size) 12 U64_SIZE next

/-- `FLNode::from`: wrap a page, asserting the type tag is 3. -/
def FLNode.fromBytes (d : Bytes) : Option FLNode :=
  if readLE d 0 2 = FL_NODE_TYPE then some d else none

/-- `FLNode::get_ptr` (checks `idx < size`). -/
def FLNode.get_ptr (n : FLNode) (idx : Nat) : Option Nat :=
  if idx < FLNode.size n then
    some (readLE n (FL_HEADER + U64_SIZE * idx) U64_SIZE)
  else none

/-- `FLNode::set_ptr` (checks `idx < size`). -/
def FLNode.set_ptr (n : FLNode) (idx ptr : Nat) : Option FLNode :=
  if idx < FLNode.size n then
    some (writeLE n (FL_HEADER + U64_SIZE * idx) U64_SIZE ptr)
  else none

/-- `FLNode::set_total` on a raw page. -/
def FLNode.set_total (d : Bytes) (total : Nat) : Bytes :=
  writeLE d 4 U64_SIZE total

/-- `HashMap::insert` on the association list (the newest entry wins). -/
def assocSet {α : Type} (l : List (Nat × α)) (k : Nat) (v : α) :
    List (Nat × α) :=
  (k, v) :: l

/-- The free-list page-manager state (`page_manager.rs`): the pending
`updates` map (`none` marks a deallocated page), the flushed pages as seen
through the file mapping, and the append counter. -/
structure FLPageManager where
  updates : List (Nat × Option Bytes)
  mmapv : Nat → Bytes
  flushed : Nat
  nappend : Nat

/-- `PageManager::page_get::<FLNode>`: the pending update if present
(`unwrap` panics on a deallocated page), else the mapped page; both go
through `FLNode::from` and its type-tag assertion. -/
def FLPageManager.page_get (pm : FLPageManager) (ptr : Nat) : Option FLNode :=
  match assocGet pm.updates ptr with
  | some d => d.bind FLNode.fromBytes
  | none => FLNode.fromBytes (pm.mmapv ptr)

/-- `PageManager::page_append`: place the node on the page after all
known ones. -/
def FLPageManager.page_append (pm : FLPageManager) (n : FLNode) :
    Nat × FLPageManager :=
  (pm.flushed + pm.nappend,
   { pm with
      nappend := pm.nappend + 1
      updates := assocSet pm.updates (pm.flushed + pm.nappend) (some n) })

/-- `PageManager::page_reuse`: overwrite the pending page at `ptr`. -/
def FLPageManager.page_reuse (pm : FLPageManager) (ptr : Nat) (n : FLNode) :
    FLPageManager :=
  { pm with updates := assocSet pm.updates ptr (some n) }

/-- `page_get_raw_mut` followed by `FLNode::set_total`: write the total
field of the page in place — in the pending update if present (panicking
on a deallocated one), else through the mapping. -/
def FLPageManager.set_total_raw (pm : FLPageManager) (ptr total : Nat) :
    Option FLPageManager :=
  match assocGet pm.updates ptr with
  | some (some d) =>
    some { pm with
      updates := assocSet pm.updates ptr (some (FLNode.set_total d total)) }
  | some none => none
  | none =>
    some { pm with mmapv := fun p =>
      if p = ptr then FLNode.set_total (pm.mmapv ptr) total else pm.mmapv p }

/-- The free-list state `update` works on: the head pointer and the page
manager. -/
structure FreeListS where
  head : Nat
  pm : FLPageManager

/-- `FreeList::total` (the `try_into().unwrap()` to `i64` checks the
stored field fits in 63 bits). -/
def FreeListS.total (fl : FreeListS) : Option Nat :=
  if fl.head = 0 then some 0
  else (fl.pm.page_get fl.head).bind fun node =>
    if FLNode.fl_total node < 2 ^ 63 then some (FLNode.fl_total node) else none

/-- The inner loop of `FreeList::update` phase 2: working down from
`remain`, move pointers of the popped node into `reuse` while the planned
rebuild can still use their pages. Returns the grown `reuse` and the
final `remain`. -/
def reuse_loop (node : FLNode) (freedLen : Nat) :
    Nat → List Nat → Option (List Nat × Nat)
  | 0, reuse => some (reuse, 0)
  | remain + 1, reuse =>
    if reuse.length * MAX_FREE_LIST_IN_PAGE < freedLen then
      (FLNode.get_ptr node remain).bind fun p =>
        reuse_loop node freedLen remain (reuse ++ [p])
    else
      some (reuse, remain + 1)

/-- `for i in 0..remain { freed_ptrs.push_back(node.get_ptr(i)) }`. -/
def ptrs_below (node : FLNode) : Nat → Option (List Nat)
  | 0 => some []
  | k + 1 => (ptrs_below node k).bind fun l =>
      (FLNode.get_ptr node k).map fun p => l ++ [p]

/-- The head-recycling loop of `FreeList::update`: pop nodes off the old
list while their pages are needed for the rebuild, collect their pages
into `freed`, salvage pointers into `reuse`, and discount their sizes
from `total`. -/
def update_loop (pm : FLPageManager) :
    Nat → Nat → Nat → List Nat → List Nat → Int →
    Option (Nat × List Nat × List Nat × Int)
  | 0, _, _, _, _, _ => none
  | fuel + 1, head, popn, freed, reuse, total =>
    if head ≠ 0 ∧ reuse.length * MAX_FREE_LIST_IN_PAGE < freed.length then
      (pm.page_get head).bind fun node =>
      if FLNode.size node ≤ popn then
        update_loop pm fuel (FLNode.next node) (popn - FLNode.size node)
          (freed ++ [head]) reuse (total - (FLNode.size node : Int))
      else
        (reuse_loop node (freed.length + 1) (FLNode.size node - popn)
            reuse).bind fun r =>
        (ptrs_below node r.2).bind fun ps =>
        update_loop pm fuel (FLNode.next node) 0
          ((freed ++ [head]) ++ ps) r.1 (total - (FLNode.size node : Int))
    else
      some (head, freed, reuse, total)

/-- Fill consecutive pointer slots of a node from a list
(`new_node.set_ptr(i, ptr)` for each `(i, ptr)`). -/
def set_ptrs : Nat → FLNode → List Nat → Option FLNode
  | _, node, [] => some node
  | i, node, p :: ps =>
    (FLNode.set_ptr node i p).bind fun n2 => set_ptrs (i + 1) n2 ps

/-- The loop of `FreeList::push`: cut up to `MAX_FREE_LIST_IN_PAGE`
pointers off the front of `freed_ptrs` into a new node linked to the
current head, and place it on a reused page if one is available, else on
an appended one. -/
def push_loopF : Nat → FLPageManager → Nat → List Nat → List Nat →
    Option (Nat × FLPageManager × List Nat)
  | 0, _, _, _, _ => none
  | fuel + 1, pm, head, freed, reuse =>
    if freed.isEmpty then some (head, pm, reuse)
    else
      (set_ptrs 0 (FLNode.new (min freed.length MAX_FREE_LIST_IN_PAGE) head)
          (freed.take (min freed.length MAX_FREE_LIST_IN_PAGE))).bind fun node =>
      match reuse with
      | r :: rs => push_loopF fuel (pm.page_reuse r node) r
          (freed.drop (min freed.length MAX_FREE_LIST_IN_PAGE)) rs
      | [] =>
        push_loopF fuel (pm.page_append node).2 (pm.page_append node).1
          (freed.drop (min freed.length MAX_FREE_LIST_IN_PAGE)) []

/-- `FreeList::push` (with its trailing `assert!(reuse.is_empty())`). -/
def FreeListS.push (fl : FreeListS) (freed reuse : List Nat) (fuel : Nat) :
    Option FreeListS :=
  (push_loopF fuel fl.pm fl.head freed reuse).bind fun r =>
  if r.2.2 = [] then some { head := r.1, pm := r.2.1 } else none

/-- `FreeList::update` (`popn` is the caller's `nfree`, a non-negative
count; `fuel` bounds the head-recycling loop). -/
def FreeListS.update (fl : FreeListS) (popn : Nat) (freed : List Nat)
    (fuel : Nat) : Option FreeListS :=
  (fl.total).bind fun tot =>
  if popn ≤ tot then
    if popn = 0 ∧ freed = [] then some fl
    else
      (update_loop fl.pm fuel fl.head popn freed [] (tot : Int)).bind fun r =>
      if r.2.1.length ≤ r.2.2.1.length * MAX_FREE_LIST_IN_PAGE
          ∨ r.1 = 0 then
        (FreeListS.push { head := r.1, pm := fl.pm } r.2.1 r.2.2.1
            (r.2.1.length + 1)).bind fun fl2 =>
        if 0 ≤ r.2.2.2 + (r.2.1.length : Int) then
          (fl2.pm.set_total_raw fl2.head
              (r.2.2.2 + (r.2.1.length : Int)).toNat).map fun pm3 =>
            { head := fl2.head, pm := pm3 }
        else none
      else none
  else none

/-- The `next`-chain from `head`: the page pointers of its nodes (`none`
if some node is unreadable or the chain outruns the fuel). -/
def flChainPtrs (pm : FLPageManager) : Nat → Nat → Option (List Nat)
  | 0, h => if h = 0 then some [] else none
  | fuel + 1, h =>
    if h = 0 then some [] else
      (pm.page_get h).bind fun node =>
        (flChainPtrs pm fuel (FLNode.next node)).map fun rest => h :: rest

/-- The `next`-chain from `head`: the `size` fields of its nodes. -/
def flChainSizes (pm : FLPageManager) : Nat → Nat → Option (List Nat)
  | 0, h => if h = 0 then some [] else none
  | fuel + 1, h =>
    if h = 0 then some [] else
      (pm.page_get h).bind fun node =>
        (flChainSizes pm fuel (FLNode.next node)).map fun rest =>
          FLNode.size node :: rest

/-- The C9 invariant, as the claim words it: the chain from the head is
readable and `total()` returns the sum of the `size` fields along it (in
particular `some 0` when the head is 0). -/
def flInvariant (fl : FreeListS) (fuel : Nat) : Prop :=
  ∃ sizes, flChainSizes fl.pm fuel fl.head = some sizes
    ∧ FreeListS.total fl = some sizes.sum

/-- The C9 witness page: a free-list node with `size = 2`, `total = 2`,
`next = 0` and stored pointers `3, 4`. -/
def wC9node : Bytes :=
  writeLE (writeLE (writeLE (writeLE (writeLE
    (writeLE zeros 0 2 3) 2 2 2) 4 8 2) 12 8 0) 20 8 3) 28 8 4

/-- The C9 witness page manager: the node above flushed at page 5, ten
pages on disk, no pending updates. -/
def wC9pm : FLPageManager :=
  { updates := []
    mmapv := fun p => if p = 5 then wC9node else zeros
    flushed := 10
    nappend := 0 }

/-- The C9 witness free list: head at page 5. -/
def wC9fl : FreeListS := { head := 5, pm := wC9pm }

/-- The state after the C9 witness update (`popn = 1`, freed pages 7, 8). -/
def wC9res : FreeListS := (wC9fl.update 1 [7, 8] 10).getD wC9fl

end DBV

namespace DBV

/-! ## Claim theorems -/

/-- C2, counterexample: this master page satisfies every load invariant as
the specification words it (valid signature, `total_pages = 2` within the
2-page file, `btree_root = 0 < 2`, `free_list_head = 0 < 2`, and
`free_list_head = 0`), yet `master_load` rejects it, because the code also
requires `free_list_head ≥ 1`. -/
theorem C2_counterexample :
    specLoadInvariant { file := 8192, chunk0 := c2data }
    ∧ master_load { file := 8192, chunk0 := c2data } = .error "bad master page" := by
  constructor
  · refine ⟨by decide, by decide, by decide, by decide, by decide, ?_⟩
    exact Or.inl (by decide)
  · rfl

/-- C2, amended: on a non-empty file, `master_load` succeeds if and only if
the signature matches, `1 ≤ total_pages ≤ file_size / PAGE_SIZE`,
`btree_root < total_pages`, `free_list_head < total_pages`, and
`1 ≤ free_list_head` with `free_list_head ≠ btree_root` (so a master page
whose `free_list_head` is 0 never loads). -/
theorem master_load_eq (m : MMapModel) (hf : m.file ≠ 0) :
    master_load m =
      if readBytesL m.chunk0 0 16 ≠ DB_SIG then .error "bad signature"
      else if ¬ (1 ≤ readLE m.chunk0 24 8
            ∧ readLE m.chunk0 24 8 ≤ m.file / BTREE_PAGE_SIZE)
          ∨ readLE m.chunk0 24 8 ≤ readLE m.chunk0 16 8
          ∨ readLE m.chunk0 24 8 ≤ readLE m.chunk0 32 8
          ∨ readLE m.chunk0 32 8 < 1
          ∨ readLE m.chunk0 32 8 = readLE m.chunk0 16 8 then .error "bad master page"
      else .ok { btree_root := readLE m.chunk0 16 8,
                 total_used_pages := readLE m.chunk0 24 8,
                 free_list_head := readLE m.chunk0 32 8 } := by
  unfold master_load
  rw [if_neg hf]

theorem C2_amended (m : MMapModel) (hf : m.file ≠ 0) :
    masterLoadOk m ↔
      (readBytesL m.chunk0 0 16 = DB_SIG
       ∧ 1 ≤ readLE m.chunk0 24 8
       ∧ readLE m.chunk0 24 8 ≤ m.file / BTREE_PAGE_SIZE
       ∧ readLE m.chunk0 16 8 < readLE m.chunk0 24 8
       ∧ readLE m.chunk0 32 8 < readLE m.chunk0 24 8
       ∧ 1 ≤ readLE m.chunk0 32 8
       ∧ readLE m.chunk0 32 8 ≠ readLE m.chunk0 16 8) := by
  unfold masterLoadOk
  rw [master_load_eq m hf]
  constructor
  · rintro ⟨mp, hmp⟩
    split at hmp
    · exact absurd hmp (by simp)
    · split at hmp
      · exact absurd hmp (by simp)
      · rename_i hsig hbad
        push_neg at hsig
        refine ⟨hsig, ?_⟩
        omega
  · rintro ⟨hsig, h1, h2, h3, h4, h5, h6⟩
    rw [if_neg (by simpa using hsig), if_neg (by omega)]
    exact ⟨_, rfl⟩

/-- C2, witness for the amended theorem at a concrete well-formed master
page (file of 3 pages, root 1, free-list head 2). -/
theorem C2_amended_witness :
    (MMapModel.mk 12288 c2good).file ≠ 0
    ∧ (masterLoadOk (MMapModel.mk 12288 c2good) ↔
      (readBytesL (MMapModel.mk 12288 c2good).chunk0 0 16 = DB_SIG
       ∧ 1 ≤ readLE (MMapModel.mk 12288 c2good).chunk0 24 8
       ∧ readLE (MMapModel.mk 12288 c2good).chunk0 24 8
           ≤ (MMapModel.mk 12288 c2good).file / BTREE_PAGE_SIZE
       ∧ readLE (MMapModel.mk 12288 c2good).chunk0 16 8
           < readLE (MMapModel.mk 12288 c2good).chunk0 24 8
       ∧ readLE (MMapModel.mk 12288 c2good).chunk0 32 8
           < readLE (MMapModel.mk 12288 c2good).chunk0 24 8
       ∧ 1 ≤ readLE (MMapModel.mk 12288 c2good).chunk0 32 8
       ∧ readLE (MMapModel.mk 12288 c2good).chunk0 32 8
           ≠ readLE (MMapModel.mk 12288 c2good).chunk0 16 8)) :=
  ⟨by decide, C2_amended (MMapModel.mk 12288 c2good) (by decide)⟩

/-- C3, code-bug evaluation: `insert_exec` with mode `UpdateOnly` on the
empty tree (root = 0) allocates a root leaf holding the key, reports
`added = true`, and the key subsequently reads back — the mode is never
consulted on the `root == 0` path, although `UpdateOnly` is documented as
"update existing keys" and the specification makes it a no-op on a missing
key. -/
theorem C3_bug_eval :
    (insert_execF 1 emptyTree
        { added := false, key := [1], val := [], mode := .UpdateOnly }).map
      (fun r => (r.1.added, r.2.root)) = some (true, 1)
    ∧ (insert_execF 1 emptyTree
        { added := false, key := [1], val := [], mode := .UpdateOnly }).bind
      (fun r => get_valueF 1 r.2 [1]) = some (some []) :=
  ⟨rfl, rfl⟩

/-- C4, counterexample: with only the key `[97]` stored, the tree-level
`get_value` reports the absent key `[98]` as `None` (a non-error), but the
public `KV::get` surfaces exactly that absence as `Err(())` — the error
channel, with a unit error value that cannot be distinguished from any
other failure. -/
theorem C4_counterexample :
    (insertF 1 emptyTree [97] [65]).bind (fun r => kv_getF 1 r.2 [98])
      = some (.error ())
    ∧ (insertF 1 emptyTree [97] [65]).bind (fun r => get_valueF 1 r.2 [98])
      = some none :=
  ⟨rfl, rfl⟩

/-- C4, amended: the tree-level lookup distinguishes absence (`None`) from
errors, but the public `get` of the KV facade reports absence through the
error channel: it returns `Err(())` exactly when `get_value` reports the
key absent. -/
theorem C4_amended (fuel : Nat) (tree : BTreeS) (key : List Nat) :
    kv_getF fuel tree key = some (.error ())
      ↔ get_valueF fuel tree key = some none := by
  unfold kv_getF
  cases h : get_valueF fuel tree key with
  | none => simp
  | some o => cases o <;> simp

/-- C5, counterexample: on the tree built by publicly inserting the single
key `[97]`, `seek([97], LT)` corrects with `prev` onto the internal
sentinel, and `deref` yields the empty key (and empty value). -/
theorem C5_counterexample :
    (insertF 1 emptyTree [97] [65]).bind
      (fun r => (seekE 2 r.2 [97] .LT).bind derefE) = some ([], []) :=
  rfl

/-- C5, amended: the public `get` never returns a binding for the empty key
— the empty key is rejected by its argument assert, so `get_value` on the
empty key always panics rather than answering — but the `seek` iterator CAN
yield the empty key from `deref`: seeking `LT` from the smallest user key
lands on the sentinel entry, as the counterexample shows concretely. -/
theorem C5_amended (fuel : Nat) (tree : BTreeS) :
    get_valueF fuel tree [] = none
    ∧ ∃ t1 : BTreeS, insertF 1 emptyTree [97] [65] = some (true, t1)
        ∧ (seekE 2 t1 [97] .LT).bind derefE = some ([], []) :=
  ⟨rfl, ⟨_, rfl, rfl⟩⟩

/-- C10, counterexample: on the empty database, `seek` with the comparator
`GT` does not return an (empty-stack) iterator at all: it panics inside,
because it calls `deref` on the freshly built empty iterator. -/
theorem C10_counterexample :
    seekE 1 { root := 0, pm := PageManager.empty } [97] .GT = none :=
  rfl

/-- C10, amended: on the empty database, `seek_le` (and `seek` with `LE`)
return the iterator with empty path and positions stacks; `deref`, `next`
and `prev` on that iterator panic on the underflow of
`positions.len() - 1` instead of reporting a logical end (they are total
only when the path is non-empty); and `seek` with any other comparator
panics the same way itself, by calling `deref` on that iterator. -/
theorem C10_amended (pm : PageManager) (key : List Nat) (fuel : Nat) :
    seek_leE fuel { root := 0, pm := pm } key = some { path := [], positions := [] }
    ∧ seekE fuel { root := 0, pm := pm } key .LE
        = some { path := [], positions := [] }
    ∧ seekE fuel { root := 0, pm := pm } key .GT = none
    ∧ seekE fuel { root := 0, pm := pm } key .GE = none
    ∧ seekE fuel { root := 0, pm := pm } key .LT = none
    ∧ derefE { path := [], positions := [] } = none
    ∧ nextE pm { path := [], positions := [] } = none
    ∧ prevE pm { path := [], positions := [] } = none := by
  have hle : seek_leE fuel { root := 0, pm := pm } key
      = some { path := [], positions := [] } := by
    cases fuel <;> rfl
  refine ⟨hle, ?_, ?_, ?_, ?_, rfl, rfl, rfl⟩ <;> simp [seekE, hle, derefE]

/-- Transitivity used by the search proof: `a < b` and `b ≤ c` give
`a < c` in the lexicographic byte order. -/
theorem bytesCmp_lt_of_lt_of_not_gt :
    ∀ a b c : List Nat, bytesCmp a b = .lt → bytesCmp b c ≠ .gt → bytesCmp a c = .lt
  | [], b, c, hab, hbc => by
    cases b with
    | nil => simp [bytesCmp] at hab
    | cons y bs =>
      cases c with
      | nil => simp [bytesCmp] at hbc
      | cons z cs => simp [bytesCmp]
  | x :: as_, b, c, hab, hbc => by
    cases b with
    | nil => simp [bytesCmp] at hab
    | cons y bs =>
      cases c with
      | nil => simp [bytesCmp] at hbc
      | cons z cs =>
        simp only [bytesCmp] at hab hbc ⊢
        by_cases hxy : x < y
        · rw [if_pos hxy] at hab
          by_cases hyz : y < z
          · rw [if_pos (by omega)]
          · rw [if_neg hyz] at hbc
            by_cases hzy : z < y
            · rw [if_pos hzy] at hbc; exact absurd rfl hbc
            · rw [if_pos (by omega)]
        · rw [if_neg hxy] at hab
          by_cases hyx : y < x
          · rw [if_pos hyx] at hab; exact absurd hab (by simp)
          · rw [if_neg hyx] at hab
            by_cases hyz : y < z
            · rw [if_pos (by omega)]
            · rw [if_neg hyz] at hbc
              by_cases hzy : z < y
              · rw [if_pos hzy] at hbc; exact absurd rfl hbc
              · rw [if_neg hzy] at hbc
                rw [if_neg (by omega), if_neg (by omega)]
                exact bytesCmp_lt_of_lt_of_not_gt as_ bs cs hab hbc

/-- Invariant proof for the binary-search loop: starting from a state where
`found` is a valid answer and every other valid answer lies in
`[low, high]`, the loop returns the largest valid answer. -/
theorem lookup_loop_spec (n : BNode) (key : List Nat)
    (hsorted : ∀ j, j < n.num_keys → ∀ i, i < j →
      bytesCmp (n.get_key i) (n.get_key j) = .lt) :
    ∀ fuel low high found, high + 1 - low < fuel + 1 → 1 ≤ low →
    high < n.num_keys → found < n.num_keys →
    bytesCmp (n.get_key found) key ≠ .gt →
    found < low →
    (∀ j, j < n.num_keys → bytesCmp (n.get_key j) key ≠ .gt →
      j ≤ found ∨ (low ≤ j ∧ j ≤ high)) →
    (BNode.lookup_loop n key fuel low high found < n.num_keys
     ∧ bytesCmp (n.get_key (BNode.lookup_loop n key fuel low high found)) key ≠ .gt
     ∧ ∀ j, j < n.num_keys → bytesCmp (n.get_key j) key ≠ .gt →
         j ≤ BNode.lookup_loop n key fuel low high found) := by
  intro fuel
  induction fuel with
  | zero =>
    intro low high found hfuel hlow hhigh hfound hcmp hfl hmax
    have hlh : high < low := by omega
    refine ⟨hfound, hcmp, fun j hj hcj => ?_⟩
    rcases hmax j hj hcj with h | h
    · exact h
    · omega
  | succ f ih =>
    intro low high found hfuel hlow hhigh hfound hcmp hfl hmax
    by_cases hlh : low ≤ high
    · have hmidlo : low ≤ (low + high) / 2 := by omega
      have hmidhi : (low + high) / 2 ≤ high := by omega
      rw [show BNode.lookup_loop n key (f + 1) low high found
          = (match bytesCmp (n.get_key ((low + high) / 2)) key with
             | .lt | .eq => BNode.lookup_loop n key f ((low + high) / 2 + 1) high
                 ((low + high) / 2)
             | .gt => BNode.lookup_loop n key f low ((low + high) / 2 - 1) found) from by
        simp [BNode.lookup_loop, hlh]]
      rcases hc : bytesCmp (n.get_key ((low + high) / 2)) key with _ | _ | _
      · -- .lt
        exact ih ((low + high) / 2 + 1) high ((low + high) / 2) (by omega) (by omega)
          hhigh (by omega) (by rw [hc]; simp) (by omega)
          (fun j hj hcj => by rcases hmax j hj hcj with h | h <;> omega)
      · -- .eq
        exact ih ((low + high) / 2 + 1) high ((low + high) / 2) (by omega) (by omega)
          hhigh (by omega) (by rw [hc]; simp) (by omega)
          (fun j hj hcj => by rcases hmax j hj hcj with h | h <;> omega)
      · -- .gt
        refine ih low ((low + high) / 2 - 1) found (by omega) hlow (by omega)
          hfound hcmp hfl (fun j hj hcj => ?_)
        rcases hmax j hj hcj with h | h
        · exact Or.inl h
        · refine Or.inr ⟨h.1, ?_⟩
          by_contra hgt
          have hmj : (low + high) / 2 ≤ j := by omega
          rcases Nat.eq_or_lt_of_le hmj with he | hlt
          · rw [he] at hc
            exact hcj (by rw [hc])
          · have := bytesCmp_lt_of_lt_of_not_gt (n.get_key ((low + high) / 2))
              (n.get_key j) key (hsorted j hj _ hlt) hcj
            rw [hc] at this
            cases this
    · rw [show BNode.lookup_loop n key (f + 1) low high found = found from by
        simp [BNode.lookup_loop, hlh]]
      refine ⟨hfound, hcmp, fun j hj hcj => ?_⟩
      rcases hmax j hj hcj with h | h
      · exact h
      · omega

/-- C7: on a node with at least one key, keys strictly ascending in the
lexicographic byte order and first key `≤ key`, `node_lookup_le` returns
the largest index `i < num_keys` with `get_key i ≤ key`. -/
theorem C7_node_lookup_le (n : BNode) (key : List Nat)
    (hnk : 1 ≤ n.num_keys)
    (hsorted : ∀ j, j < n.num_keys → ∀ i, i < j →
      bytesCmp (n.get_key i) (n.get_key j) = .lt)
    (h0 : bytesCmp (n.get_key 0) key ≠ .gt) :
    n.node_lookup_le key < n.num_keys
    ∧ bytesCmp (n.get_key (n.node_lookup_le key)) key ≠ .gt
    ∧ ∀ j, j < n.num_keys → bytesCmp (n.get_key j) key ≠ .gt →
        j ≤ n.node_lookup_le key := by
  unfold BNode.node_lookup_le
  exact lookup_loop_spec n key hsorted (n.num_keys + 1) 1 (n.num_keys - 1) 0
    (by omega) (by omega) (by omega) (by omega) h0 (by omega)
    (fun j hj _ => by omega)

/-- On a path where every level sits on its node's last key, `nextIter`
walks up to the root, fails there, and returns with the state untouched. -/
theorem nextIterE_at_end (pm : PageManager) (it : BTreeIterator)
    (hlen : it.path.length = it.positions.length)
    (hlast : ∀ l, l < it.positions.length → ∀ node, it.path.get? l = some node →
      1 ≤ node.num_keys ∧ it.positions.get? l = some (node.num_keys - 1)) :
    ∀ level, level < it.positions.length → nextIterE pm it level = some (false, it) := by
  intro level
  induction level with
  | zero =>
    intro hl
    obtain ⟨node, hnode⟩ : ∃ node, it.path.get? 0 = some node := by
      rcases List.get?_eq_get (by omega : 0 < it.path.length) with h
      exact ⟨_, h⟩
    obtain ⟨hnk, hpos⟩ := hlast 0 hl node hnode
    simp only [nextIterE, hnode, hpos]
    rw [if_neg (by omega), if_neg (by omega)]
  | succ lv ih =>
    intro hl
    obtain ⟨node, hnode⟩ : ∃ node, it.path.get? (lv + 1) = some node := by
      rcases List.get?_eq_get (by omega : lv + 1 < it.path.length) with h
      exact ⟨_, h⟩
    obtain ⟨hnk, hpos⟩ := hlast (lv + 1) hl node hnode
    simp only [nextIterE, hnode, hpos]
    rw [if_neg (by omega), if_neg (by omega), ih (by omega)]

/-- On a path where every level sits on index 0, `prevIter` walks up to the
root, fails there, and returns with the state untouched. -/
theorem prevIterE_at_first (pm : PageManager) (it : BTreeIterator)
    (hlen : it.path.length = it.positions.length)
    (hfirst : ∀ l, l < it.positions.length → it.positions.get? l = some 0) :
    ∀ level, level < it.positions.length → prevIterE pm it level = some (false, it) := by
  intro level
  induction level with
  | zero =>
    intro hl
    obtain ⟨node, hnode⟩ : ∃ node, it.path.get? 0 = some node := by
      rcases List.get?_eq_get (by omega : 0 < it.path.length) with h
      exact ⟨_, h⟩
    simp only [prevIterE, hnode, hfirst 0 hl]
    rw [if_neg (by omega)]
  | succ lv ih =>
    intro hl
    obtain ⟨node, hnode⟩ : ∃ node, it.path.get? (lv + 1) = some node := by
      rcases List.get?_eq_get (by omega : lv + 1 < it.path.length) with h
      exact ⟨_, h⟩
    simp only [prevIterE, hnode, hfirst (lv + 1) hl]
    rw [if_neg (by omega), ih (by omega)]

/-- C8: for every iterator with a non-empty path (and positions stack of
matching depth), if it is positioned at the last entry of the tree — every
level on its node's last key — then `next` returns `false` and leaves the
path and positions (hence the `deref` result) unchanged; symmetrically, if
every level is on index 0 (the first entry), `prev` returns `false` and
leaves the state unchanged. -/
theorem C8_iterator_ends (pm : PageManager) (it : BTreeIterator)
    (hne : it.path ≠ [])
    (hlen : it.path.length = it.positions.length) :
    ((∀ l, l < it.positions.length → ∀ node, it.path.get? l = some node →
        1 ≤ node.num_keys ∧ it.positions.get? l = some (node.num_keys - 1)) →
      nextE pm it = some (false, it))
    ∧ ((∀ l, l < it.positions.length → it.positions.get? l = some 0) →
      prevE pm it = some (false, it)) := by
  have hpos : it.positions.length ≠ 0 := by
    intro h0
    exact hne (List.length_eq_zero.mp (by omega))
  constructor
  · intro hlast
    obtain ⟨lv, hlv⟩ : ∃ lv, it.positions.length = lv + 1 :=
      ⟨it.positions.length - 1, by omega⟩
    simp only [nextE, hlv]
    exact nextIterE_at_end pm it hlen hlast lv (by omega)
  · intro hfirst
    obtain ⟨lv, hlv⟩ : ∃ lv, it.positions.length = lv + 1 :=
      ⟨it.positions.length - 1, by omega⟩
    simp only [prevE, hlv]
    exact prevIterE_at_first pm it hlen hfirst lv (by omega)

/-- C8, witness: the iterator on the one-entry sentinel leaf, where the
current entry is both the first and the last; `next` and `prev` both report
`false` and leave the iterator unchanged. -/
theorem C8_witness :
    nextE PageManager.empty wC8 = some (false, wC8)
    ∧ prevE PageManager.empty wC8 = some (false, wC8) := by
  have h := C8_iterator_ends PageManager.empty wC8 (by simp [wC8])
    (by simp [wC8])
  refine ⟨h.1 ?_, h.2 ?_⟩
  · intro l hl node hnode
    have hl0 : l = 0 := by
      simp [wC8] at hl
      omega
    subst hl0
    simp only [wC8, List.get?] at hnode
    cases hnode
    exact ⟨by decide, by decide⟩
  · intro l hl
    have hl0 : l = 0 := by
      simp [wC8] at hl
      omega
    subst hl0
    rfl

/-! ### Byte-buffer read/write lemmas -/

theorem writeLE_out_raw (b : Bytes) (pos n v x : Nat)
    (h : x < pos ∨ pos + n ≤ x) : writeLE b pos n v x = b x := by
  unfold writeLE
  rw [if_neg (by omega)]

theorem readU8_writeLE_out (b : Bytes) (pos n v i : Nat)
    (h : i < pos ∨ pos + n ≤ i) :
    readU8 (writeLE b pos n v) i = readU8 b i := by
  unfold readU8
  rw [writeLE_out_raw b pos n v i h]

theorem readU8_writeLE_in (b : Bytes) (pos n v i : Nat)
    (h1 : pos ≤ i) (h2 : i < pos + n) :
    readU8 (writeLE b pos n v) i = v / 256 ^ (i - pos) % 256 := by
  unfold readU8 writeLE
  rw [if_pos ⟨h1, h2⟩]
  omega

theorem readLE_congr {b1 b2 : Bytes} :
    ∀ n {pos1 pos2 : Nat},
      (∀ j, j < n → readU8 b1 (pos1 + j) = readU8 b2 (pos2 + j)) →
      readLE b1 pos1 n = readLE b2 pos2 n
  | 0, _, _, _ => rfl
  | n + 1, pos1, pos2, h => by
    unfold readLE
    have h0 := h 0 (by omega)
    simp only [Nat.add_zero] at h0
    rw [h0]
    exact congrArg (fun z => readU8 b2 pos2 + 256 * z)
      (readLE_congr n (fun j hj => by
        have hh := h (j + 1) (by omega)
        have e1 : pos1 + (j + 1) = pos1 + 1 + j := by omega
        have e2 : pos2 + (j + 1) = pos2 + 1 + j := by omega
        rw [e1, e2] at hh
        exact hh))

theorem readLE_lt (b : Bytes) : ∀ n pos, readLE b pos n < 256 ^ n
  | 0, pos => by simp [readLE]
  | n + 1, pos => by
    have h1 : readU8 b pos < 256 := Nat.mod_lt _ (by omega)
    have h2 := readLE_lt b n (pos + 1)
    have h3 : (1 : Nat) ≤ 256 ^ n := Nat.one_le_pow n 256 (by omega)
    unfold readLE
    rw [pow_succ]
    omega

theorem readLE_writeLE_same (b : Bytes) :
    ∀ n pos v, readLE (writeLE b pos n v) pos n = v % 256 ^ n
  | 0, pos, v => by simp [readLE, pow_zero, Nat.mod_one]
  | n + 1, pos, v => by
    unfold readLE
    rw [readU8_writeLE_in b pos (n + 1) v pos (le_refl _) (by omega)]
    simp only [Nat.sub_self, pow_zero, Nat.div_one]
    have hrest : readLE (writeLE b pos (n + 1) v) (pos + 1) n
        = readLE (writeLE b (pos + 1) n (v / 256)) (pos + 1) n := by
      apply readLE_congr
      intro j hj
      rw [readU8_writeLE_in b pos (n + 1) v (pos + 1 + j) (by omega) (by omega),
          readU8_writeLE_in b (pos + 1) n (v / 256) (pos + 1 + j) (by omega) (by omega)]
      have e1 : pos + 1 + j - pos = j + 1 := by omega
      have e2 : pos + 1 + j - (pos + 1) = j := by omega
      rw [e1, e2, Nat.div_div_eq_div_mul, ← pow_succ']
    rw [hrest, readLE_writeLE_same b n (pos + 1) (v / 256), pow_succ', Nat.mod_mul]

theorem readLE_writeLE_disjoint (b : Bytes) (pos n v pos2 n2 : Nat)
    (h : pos2 + n2 ≤ pos ∨ pos + n ≤ pos2) :
    readLE (writeLE b pos n v) pos2 n2 = readLE b pos2 n2 :=
  readLE_congr n2 (fun j hj => readU8_writeLE_out b pos n v (pos2 + j) (by omega))

theorem copyRange_out_raw (dst : Bytes) (dpos : Nat) (src : Bytes) (spos len x : Nat)
    (h : x < dpos ∨ dpos + len ≤ x) :
    copyRange dst dpos src spos len x = dst x := by
  unfold copyRange
  rw [if_neg (by omega)]

theorem readU8_copyRange_in (dst : Bytes) (dpos : Nat) (src : Bytes) (spos len i : Nat)
    (h1 : dpos ≤ i) (h2 : i < dpos + len) :
    readU8 (copyRange dst dpos src spos len) i = readU8 src (spos + (i - dpos)) := by
  unfold readU8 copyRange
  rw [if_pos ⟨h1, h2⟩]

theorem readBytesL_congr {b1 b2 : Bytes} {pos1 pos2 : Nat} (len : Nat)
    (h : ∀ j, j < len → readU8 b1 (pos1 + j) = readU8 b2 (pos2 + j)) :
    readBytesL b1 pos1 len = readBytesL b2 pos2 len := by
  unfold readBytesL
  exact List.map_congr_left (fun a ha => h a (List.mem_range.mp ha))

/-! ### The effect of the write loops of `node_append_range` -/

theorem foldl_set_ptr_spec (self old : BNode) (dst src : Nat) :
    ∀ cnt,
    ((List.range cnt).foldl
        (fun nd i => nd.set_ptr (dst + i) (old.get_ptr (src + i))) self).actual_size
      = self.actual_size
    ∧ (∀ x, x < HEADER + 8 * dst ∨ HEADER + 8 * (dst + cnt) ≤ x →
        ((List.range cnt).foldl
          (fun nd i => nd.set_ptr (dst + i) (old.get_ptr (src + i))) self).data x
        = self.data x)
    ∧ (∀ j, j < cnt →
        readLE ((List.range cnt).foldl
          (fun nd i => nd.set_ptr (dst + i) (old.get_ptr (src + i))) self).data
          (HEADER + 8 * (dst + j)) 8
        = old.get_ptr (src + j)) := by
  intro cnt
  induction cnt with
  | zero => exact ⟨rfl, fun x _ => rfl, fun j hj => absurd hj (by omega)⟩
  | succ c ih =>
    obtain ⟨iha, ihd, ihr⟩ := ih
    rw [List.range_succ, List.foldl_append, List.foldl_cons, List.foldl_nil]
    refine ⟨iha, ?_, ?_⟩
    · intro x hx
      show writeLE _ _ 8 _ x = _
      rw [writeLE_out_raw _ _ _ _ _ (by unfold HEADER at hx ⊢; omega)]
      exact ihd x (by omega)
    · intro j hj
      rcases Nat.lt_succ_iff_lt_or_eq.mp hj with hlt | heq
      · show readLE (writeLE _ _ 8 _) _ 8 = _
        rw [readLE_writeLE_disjoint _ _ _ _ _ _ (by unfold HEADER; omega)]
        exact ihr j hlt
      · subst heq
        show readLE (writeLE _ (HEADER + 8 * (dst + j)) 8 _) (HEADER + 8 * (dst + j)) 8 = _
        rw [readLE_writeLE_same]
        exact Nat.mod_eq_of_lt (readLE_lt _ _ _)

theorem foldl_set_offset_spec (self old : BNode) (dst src dst_begin src_begin : Nat) :
    ∀ cnt,
    ((List.range cnt).foldl
        (fun nd i => nd.set_offset (dst + (i + 1))
          (dst_begin + old.get_offset (src + (i + 1)) - src_begin)) self).num_keys
      = self.num_keys
    ∧ ((List.range cnt).foldl
        (fun nd i => nd.set_offset (dst + (i + 1))
          (dst_begin + old.get_offset (src + (i + 1)) - src_begin)) self).actual_size
      = self.actual_size
    ∧ (∀ x, x < HEADER + 8 * self.num_keys + 2 * dst
          ∨ HEADER + 8 * self.num_keys + 2 * (dst + cnt) ≤ x →
        ((List.range cnt).foldl
          (fun nd i => nd.set_offset (dst + (i + 1))
            (dst_begin + old.get_offset (src + (i + 1)) - src_begin)) self).data x
        = self.data x)
    ∧ (∀ j, j < cnt →
        readLE ((List.range cnt).foldl
          (fun nd i => nd.set_offset (dst + (i + 1))
            (dst_begin + old.get_offset (src + (i + 1)) - src_begin)) self).data
          (HEADER + 8 * self.num_keys + 2 * (dst + j)) 2
        = (dst_begin + old.get_offset (src + (j + 1)) - src_begin) % 65536) := by
  intro cnt
  induction cnt with
  | zero => exact ⟨rfl, rfl, fun x _ => rfl, fun j hj => absurd hj (by omega)⟩
  | succ c ih =>
    obtain ⟨ihk, iha, ihd, ihr⟩ := ih
    rw [List.range_succ, List.foldl_append, List.foldl_cons, List.foldl_nil]
    have hpos : ((List.range c).foldl
        (fun nd i => nd.set_offset (dst + (i + 1))
          (dst_begin + old.get_offset (src + (i + 1)) - src_begin)) self).offset_pos
          (dst + (c + 1))
        = HEADER + 8 * self.num_keys + 2 * (dst + c) := by
      unfold BNode.offset_pos
      rw [ihk]
      omega
    refine ⟨?_, iha, ?_, ?_⟩
    · show readLE (writeLE _ _ 2 _) 2 2 = _
      rw [hpos, readLE_writeLE_disjoint _ _ _ _ _ _ (by unfold HEADER; omega)]
      exact ihk
    · intro x hx
      show writeLE _ _ 2 _ x = _
      rw [hpos, writeLE_out_raw _ _ _ _ _ (by omega)]
      exact ihd x (by omega)
    · intro j hj
      rcases Nat.lt_succ_iff_lt_or_eq.mp hj with hlt | heq
      · show readLE (writeLE _ _ 2 _) _ 2 = _
        rw [hpos, readLE_writeLE_disjoint _ _ _ _ _ _ (by omega)]
        exact ihr j hlt
      · subst heq
        show readLE (writeLE _ _ 2 _) _ 2 = _
        rw [hpos, readLE_writeLE_same]
        norm_num

theorem readLE_congr_raw {b1 b2 : Bytes} {pos n : Nat}
    (h : ∀ j, j < n → b1 (pos + j) = b2 (pos + j)) :
    readLE b1 pos n = readLE b2 pos n :=
  readLE_congr n (fun j hj => by unfold readU8; rw [h j hj])

theorem new_with_size_num_keys (t : NodeType) (cnt sz : Nat) :
    (BNode.new_with_size t cnt sz).num_keys = cnt % 65536 := by
  show readLE (writeLE (writeLE zeros 0 2 t.value) 2 2 cnt) 2 2 = cnt % 65536
  rw [readLE_writeLE_same]
  norm_num

theorem new_with_size_sig (t : NodeType) (cnt sz : Nat) :
    readLE (BNode.new_with_size t cnt sz).data 0 2 = t.value % 65536 := by
  show readLE (writeLE (writeLE zeros 0 2 t.value) 2 2 cnt) 0 2 = _
  rw [readLE_writeLE_disjoint _ _ _ _ _ _ (by omega), readLE_writeLE_same]
  norm_num

/-- Byte-level description of `appendFresh old t sz src cnt`: header fields,
pointer slots, offset slots, and the copied KV block. -/
theorem appendFresh_data (old : BNode) (t : NodeType) (sz src cnt : Nat)
    (hcnt : cnt < 65536) :
    (appendFresh old t sz src cnt).num_keys = cnt
    ∧ (appendFresh old t sz src cnt).actual_size = sz
    ∧ readLE (appendFresh old t sz src cnt).data 0 2 = t.value % 65536
    ∧ (∀ j, j < cnt →
        readLE (appendFresh old t sz src cnt).data (HEADER + 8 * j) 8
          = old.get_ptr (src + j))
    ∧ (∀ j, j < cnt →
        readLE (appendFresh old t sz src cnt).data (HEADER + 8 * cnt + 2 * j) 2
          = (old.get_offset (src + (j + 1)) - old.get_offset src) % 65536)
    ∧ (∀ q, q < old.kv_pos (src + cnt) - old.kv_pos src →
        readU8 (appendFresh old t sz src cnt).data (HEADER + 10 * cnt + q)
          = readU8 old.data (old.kv_pos src + q)) := by
  have hH : HEADER = 4 := rfl
  rcases Nat.eq_zero_or_pos cnt with hc0 | hcpos
  · subst hc0
    have hkv : old.kv_pos (src + 0) - old.kv_pos src = 0 := by
      have he : old.kv_pos (src + 0) = old.kv_pos src := rfl
      omega
    refine ⟨?_, rfl, new_with_size_sig t 0 sz, ?_, ?_, ?_⟩
    · rw [show appendFresh old t sz src 0 = BNode.new_with_size t 0 sz from rfl,
        new_with_size_num_keys]
    · intro j hj
      omega
    · intro j hj
      omega
    · intro q hq
      rw [hkv] at hq
      omega
  · have hne : cnt ≠ 0 := by omega
    obtain ⟨h1a, h1d, h1r⟩ :=
      foldl_set_ptr_spec (BNode.new_with_size t cnt sz) old 0 src cnt
    set s1 := (List.range cnt).foldl
      (fun nd i => nd.set_ptr (0 + i) (old.get_ptr (src + i)))
      (BNode.new_with_size t cnt sz) with hs1def
    obtain ⟨h2k, h2a, h2d, h2r⟩ :=
      foldl_set_offset_spec s1 old 0 src (s1.get_offset 0) (old.get_offset src) cnt
    set s2 := (List.range cnt).foldl
      (fun nd i => nd.set_offset (0 + (i + 1))
        (s1.get_offset 0 + old.get_offset (src + (i + 1)) - old.get_offset src)) s1
      with hs2def
    have hs1k : s1.num_keys = cnt := by
      have he : readLE s1.data 2 2 = readLE (BNode.new_with_size t cnt sz).data 2 2 :=
        readLE_congr_raw (fun j hj => h1d (2 + j) (by omega))
      show readLE s1.data 2 2 = cnt
      rw [he, show readLE (BNode.new_with_size t cnt sz).data 2 2
          = (BNode.new_with_size t cnt sz).num_keys from rfl,
        new_with_size_num_keys]
      exact Nat.mod_eq_of_lt hcnt
    have hs2k : s2.num_keys = cnt := h2k.trans hs1k
    have hoff0 : s2.get_offset 0 = 0 := rfl
    have hkv0 : s2.kv_pos 0 = HEADER + 10 * cnt := by
      unfold BNode.kv_pos
      rw [hs2k, hoff0]
      omega
    have hr : appendFresh old t sz src cnt
        = { s2 with data := (copyRange s2.data (s2.kv_pos 0) old.data
            (old.kv_pos src) (old.kv_pos (src + cnt) - old.kv_pos src)) } := by
      unfold appendFresh BNode.node_append_range
      rw [if_neg hne]
    rw [hr]
    have hs1k8 : HEADER + 8 * s1.num_keys = HEADER + 8 * cnt := by rw [hs1k]
    refine ⟨?_, h2a.trans h1a, ?_, ?_, ?_, ?_⟩
    · -- num_keys survives all three phases
      show readLE (copyRange s2.data (s2.kv_pos 0) old.data _ _) 2 2 = cnt
      rw [readLE_congr_raw (fun j hj =>
        copyRange_out_raw _ _ _ _ _ _ (by rw [hkv0]; omega))]
      exact hs2k
    · -- the type tag survives all three phases
      show readLE (copyRange s2.data (s2.kv_pos 0) old.data _ _) 0 2 = t.value % 65536
      rw [readLE_congr_raw (fun j hj =>
        copyRange_out_raw _ _ _ _ _ _ (by rw [hkv0]; omega))]
      rw [readLE_congr_raw (fun j hj => h2d (0 + j) (by rw [hs1k]; omega))]
      rw [readLE_congr_raw (fun j hj => h1d (0 + j) (by omega))]
      exact new_with_size_sig t cnt sz
    · -- pointer slots
      intro j hj
      show readLE (copyRange s2.data (s2.kv_pos 0) old.data _ _) (HEADER + 8 * j) 8
        = old.get_ptr (src + j)
      rw [readLE_congr_raw (fun q hq =>
        copyRange_out_raw _ _ _ _ _ _ (by rw [hkv0]; omega))]
      rw [readLE_congr_raw (fun q hq => h2d (HEADER + 8 * j + q)
        (by rw [hs1k]; omega))]
      have := h1r j hj
      rw [show 0 + j = j from by omega] at this
      exact this
    · -- offset slots
      intro j hj
      show readLE (copyRange s2.data (s2.kv_pos 0) old.data _ _)
          (HEADER + 8 * cnt + 2 * j) 2
        = (old.get_offset (src + (j + 1)) - old.get_offset src) % 65536
      rw [readLE_congr_raw (fun q hq =>
        copyRange_out_raw _ _ _ _ _ _ (by rw [hkv0]; omega))]
      have := h2r j hj
      rw [show 0 + j = j from by omega, hs1k] at this
      have hoff1 : s1.get_offset 0 = 0 := rfl
      rw [this, hoff1, Nat.zero_add]
    · -- the copied KV block
      intro q hq
      have e1 : s2.kv_pos 0 ≤ HEADER + 10 * cnt + q := by rw [hkv0]; omega
      have e2 : HEADER + 10 * cnt + q
          < s2.kv_pos 0 + (old.kv_pos (src + cnt) - old.kv_pos src) := by
        rw [hkv0]; omega
      rw [readU8_copyRange_in _ _ _ _ _ _ e1 e2, hkv0,
        show HEADER + 10 * cnt + q - (HEADER + 10 * cnt) = q from by omega]

theorem num_keys_lt (n : BNode) : n.num_keys < 65536 := by
  have := readLE_lt n.data 2 2
  norm_num at this
  exact this

theorem get_offset_lt (n : BNode) (i : Nat) : n.get_offset i < 65536 := by
  unfold BNode.get_offset
  split
  · omega
  · have := readLE_lt n.data 2 (n.offset_pos i)
    norm_num at this
    exact this

theorem wf_offsets_mono (n : BNode) (hwf : n.wf_offsets) :
    ∀ d a, a + d ≤ n.num_keys → n.get_offset a ≤ n.get_offset (a + d) := by
  intro d
  induction d with
  | zero =>
    intro a _
    rw [Nat.add_zero]
  | succ d ih =>
    intro a hd
    have h1 := ih a (by omega)
    have h2 := hwf (a + d) (by omega)
    rw [show a + d + 1 = a + (d + 1) from by omega] at h2
    omega

theorem wf_offsets_le (n : BNode) (hwf : n.wf_offsets) (a b : Nat)
    (hab : a ≤ b) (hb : b ≤ n.num_keys) : n.get_offset a ≤ n.get_offset b := by
  have := wf_offsets_mono n hwf (b - a) a (by omega)
  rw [show a + (b - a) = b from by omega] at this
  exact this

/-- Full characterisation of `appendFresh`: the new node holds exactly the
cells `src .. src+cnt` of `old`, with offsets rebased to zero. -/
theorem appendFresh_spec (old : BNode) (t : NodeType) (sz src cnt : Nat)
    (hwf : old.wf_offsets) (hsrc : src + cnt ≤ old.num_keys) :
    (appendFresh old t sz src cnt).num_keys = cnt
    ∧ (appendFresh old t sz src cnt).actual_size = sz
    ∧ (appendFresh old t sz src cnt).b_type = some t
    ∧ (∀ j, j ≤ cnt → (appendFresh old t sz src cnt).get_offset j
        = old.get_offset (src + j) - old.get_offset src)
    ∧ (∀ j, j < cnt → (appendFresh old t sz src cnt).klen j = old.klen (src + j))
    ∧ (∀ j, j < cnt → (appendFresh old t sz src cnt).vlen j = old.vlen (src + j))
    ∧ (∀ j, j < cnt → (appendFresh old t sz src cnt).cell j = old.cell (src + j))
    ∧ (appendFresh old t sz src cnt).wf_offsets
    ∧ (appendFresh old t sz src cnt).num_bytes
        = HEADER + 10 * cnt + (old.get_offset (src + cnt) - old.get_offset src) := by
  have hH : HEADER = 4 := rfl
  have hcnt : cnt < 65536 := by
    have := num_keys_lt old
    omega
  obtain ⟨hk, ha, hsig, hptr, hoffslot, hkvb⟩ := appendFresh_data old t sz src cnt hcnt
  have hmono := wf_offsets_le old hwf
  have hoffr : ∀ j, j ≤ cnt → (appendFresh old t sz src cnt).get_offset j
      = old.get_offset (src + j) - old.get_offset src := by
    intro j hj
    cases j with
    | zero =>
      have h2 : src + 0 = src := rfl
      rw [show (appendFresh old t sz src cnt).get_offset 0 = 0 from rfl, h2,
        Nat.sub_self]
    | succ j' =>
      have hlt : j' < cnt := by omega
      have hpos : (appendFresh old t sz src cnt).offset_pos (j' + 1)
          = HEADER + 8 * cnt + 2 * j' := by
        unfold BNode.offset_pos
        rw [hk]
        omega
      show readLE (appendFresh old t sz src cnt).data
        ((appendFresh old t sz src cnt).offset_pos (j' + 1)) 2 = _
      rw [hpos, hoffslot j' hlt]
      have hlt2 := get_offset_lt old (src + (j' + 1))
      omega
  have hstep : ∀ j, j < cnt →
      old.get_offset (src + j) + 4 + old.klen (src + j) + old.vlen (src + j)
        = old.get_offset (src + (j + 1)) := by
    intro j hj
    have hs := hwf (src + j) (by omega)
    rw [show src + j + 1 = src + (j + 1) from by omega] at hs
    omega
  have hkvpos : ∀ j, j ≤ cnt → old.kv_pos (src + j)
      = old.kv_pos src + (old.get_offset (src + j) - old.get_offset src) := by
    intro j hj
    unfold BNode.kv_pos
    have := hmono src (src + j) (by omega) (by omega)
    omega
  have hL : old.kv_pos (src + cnt) - old.kv_pos src
      = old.get_offset (src + cnt) - old.get_offset src := by
    rw [hkvpos cnt (le_refl cnt)]
    omega
  have hrkv : ∀ j, j ≤ cnt → (appendFresh old t sz src cnt).kv_pos j
      = HEADER + 10 * cnt + (old.get_offset (src + j) - old.get_offset src) := by
    intro j hj
    unfold BNode.kv_pos
    rw [hk, hoffr j hj]
  -- one byte of the KV block, addressed relative to cell `j`
  have hbyte : ∀ j, j ≤ cnt → ∀ q,
      old.get_offset (src + j) - old.get_offset src + q
        < old.get_offset (src + cnt) - old.get_offset src →
      readU8 (appendFresh old t sz src cnt).data
          (HEADER + 10 * cnt + (old.get_offset (src + j) - old.get_offset src) + q)
        = readU8 old.data (old.kv_pos (src + j) + q) := by
    intro j hj q hq
    have h1 := hkvb (old.get_offset (src + j) - old.get_offset src + q)
      (by rw [hL]; exact hq)
    rw [show HEADER + 10 * cnt
        + (old.get_offset (src + j) - old.get_offset src + q)
        = HEADER + 10 * cnt + (old.get_offset (src + j) - old.get_offset src) + q
        from by omega] at h1
    rw [h1, hkvpos j hj]
    exact congrArg (readU8 old.data) (by omega)
  have hklen : ∀ j, j < cnt →
      (appendFresh old t sz src cnt).klen j = old.klen (src + j) := by
    intro j hj
    unfold BNode.klen
    rw [hrkv j (by omega)]
    apply readLE_congr
    intro q hq
    apply hbyte j (by omega) q
    have m1 := hmono src (src + j) (by omega) (by omega)
    have m2 := hstep j hj
    have m3 := hmono (src + (j + 1)) (src + cnt) (by omega) (by omega)
    omega
  have hvlen : ∀ j, j < cnt →
      (appendFresh old t sz src cnt).vlen j = old.vlen (src + j) := by
    intro j hj
    unfold BNode.vlen
    rw [hrkv j (by omega)]
    have m1 := hmono src (src + j) (by omega) (by omega)
    have m2 := hstep j hj
    have m3 := hmono (src + (j + 1)) (src + cnt) (by omega) (by omega)
    have e : readLE (appendFresh old t sz src cnt).data
        (HEADER + 10 * cnt + (old.get_offset (src + j) - old.get_offset src) + 2) 2
        = readLE old.data (old.kv_pos (src + j) + 2) 2 := by
      apply readLE_congr
      intro q hq
      have hb := hbyte j (by omega) (2 + q) (by omega)
      rw [show HEADER + 10 * cnt
          + (old.get_offset (src + j) - old.get_offset src) + (2 + q)
          = HEADER + 10 * cnt
          + (old.get_offset (src + j) - old.get_offset src) + 2 + q
          from by omega] at hb
      rw [show old.kv_pos (src + j) + (2 + q)
          = old.kv_pos (src + j) + 2 + q from by omega] at hb
      exact hb
    rw [e]
  have hgptr : ∀ j, j < cnt →
      (appendFresh old t sz src cnt).get_ptr j = old.get_ptr (src + j) := by
    intro j hj
    exact hptr j hj
  have hgkey : ∀ j, j < cnt →
      (appendFresh old t sz src cnt).get_key j = old.get_key (src + j) := by
    intro j hj
    unfold BNode.get_key
    rw [hklen j hj, hrkv j (by omega)]
    apply readBytesL_congr
    intro u hu
    have m1 := hmono src (src + j) (by omega) (by omega)
    have m2 := hstep j hj
    have m3 := hmono (src + (j + 1)) (src + cnt) (by omega) (by omega)
    have hb := hbyte j (by omega) (4 + u) (by omega)
    rw [show HEADER + 10 * cnt
        + (old.get_offset (src + j) - old.get_offset src) + (4 + u)
        = HEADER + 10 * cnt
        + (old.get_offset (src + j) - old.get_offset src) + 4 + u
        from by omega] at hb
    rw [show old.kv_pos (src + j) + (4 + u)
        = old.kv_pos (src + j) + 4 + u from by omega] at hb
    exact hb
  have hgval : ∀ j, j < cnt →
      (appendFresh old t sz src cnt).get_val j = old.get_val (src + j) := by
    intro j hj
    unfold BNode.get_val
    rw [hklen j hj, hvlen j hj, hrkv j (by omega)]
    apply readBytesL_congr
    intro u hu
    have m1 := hmono src (src + j) (by omega) (by omega)
    have m2 := hstep j hj
    have m3 := hmono (src + (j + 1)) (src + cnt) (by omega) (by omega)
    have hb := hbyte j (by omega) (4 + old.klen (src + j) + u) (by omega)
    rw [show HEADER + 10 * cnt
        + (old.get_offset (src + j) - old.get_offset src)
        + (4 + old.klen (src + j) + u)
        = HEADER + 10 * cnt
        + (old.get_offset (src + j) - old.get_offset src) + 4
        + old.klen (src + j) + u
        from by omega] at hb
    rw [show old.kv_pos (src + j) + (4 + old.klen (src + j) + u)
        = old.kv_pos (src + j) + 4 + old.klen (src + j) + u from by omega] at hb
    exact hb
  refine ⟨hk, ha, ?_, hoffr, hklen, hvlen, ?_, ?_, ?_⟩
  · -- the type tag decodes back to `t`
    unfold BNode.b_type
    rw [hsig]
    cases t <;> rfl
  · intro j hj
    unfold BNode.cell
    rw [hgptr j hj, hgkey j hj, hgval j hj]
  · intro i hi
    rw [hk] at hi
    have h1 := hoffr (i + 1) (by omega)
    have h2 := hoffr i (by omega)
    have h3 := hklen i hi
    have h4 := hvlen i hi
    rw [h1, h2, h3, h4]
    have m1 := hmono src (src + i) (by omega) (by omega)
    have m2 := hstep i hi
    omega
  · unfold BNode.num_bytes
    rw [hk, hrkv cnt (le_refl cnt)]

theorem splitLeftBytes_step (n : BNode) (hwf : n.wf_offsets) (m : Nat)
    (hm : m < n.num_keys) :
    BNode.splitLeftBytes n (m + 1) = BNode.splitLeftBytes n m + 14 + n.klen m + n.vlen m := by
  unfold BNode.splitLeftBytes
  have := hwf m hm
  have hH : HEADER = 4 := rfl
  omega

theorem splitLeftBytes_mono (n : BNode) (hwf : n.wf_offsets) (a b : Nat)
    (hab : a ≤ b) (hb : b ≤ n.num_keys) :
    BNode.splitLeftBytes n a ≤ BNode.splitLeftBytes n b := by
  unfold BNode.splitLeftBytes
  have := wf_offsets_le n hwf a b hab hb
  omega

theorem num_bytes_eq_splitLeftBytes (n : BNode) :
    n.num_bytes = BNode.splitLeftBytes n n.num_keys := rfl

/-- Exit point of the decrement loop of `split2`: it lands on a prefix that
fits a page, and everything between it and the start was oversized. -/
theorem split2_dec_spec (n : BNode)
    (hfit1 : BNode.splitLeftBytes n 1 ≤ BTREE_PAGE_SIZE) :
    ∀ s, 1 ≤ s →
      1 ≤ BNode.split2_dec n s ∧ BNode.split2_dec n s ≤ s
      ∧ BNode.splitLeftBytes n (BNode.split2_dec n s) ≤ BTREE_PAGE_SIZE
      ∧ ∀ m, BNode.split2_dec n s < m → m ≤ s → BTREE_PAGE_SIZE < BNode.splitLeftBytes n m := by
  intro s
  induction s with
  | zero => intro h; omega
  | succ s ih =>
    intro _
    by_cases hc : BNode.splitLeftBytes n (s + 1) > BTREE_PAGE_SIZE
    · rw [show BNode.split2_dec n (s + 1) = BNode.split2_dec n s from by
        simp [BNode.split2_dec, hc]]
      rcases Nat.eq_zero_or_pos s with hs0 | hs1
      · subst hs0
        simp only [Nat.zero_add] at hc
        omega
      · obtain ⟨h1, h2, h3, h4⟩ := ih hs1
        refine ⟨h1, by omega, h3, fun m hm1 hm2 => ?_⟩
        rcases Nat.lt_succ_iff_lt_or_eq.mp (by omega : m < s + 2) with hlt | heq
        · exact h4 m hm1 (by omega)
        · rw [show m = s + 1 from by omega]
          exact hc
    · rw [show BNode.split2_dec n (s + 1) = s + 1 from by
        simp [BNode.split2_dec, hc]]
      exact ⟨by omega, le_refl _, by omega, fun m hm1 hm2 => by omega⟩

/-- The increment loop of `split2` returns the first index at or after its
start whose right half fits a page. -/
theorem split2_inc_spec (n : BNode) :
    ∀ fuel m r, BNode.split2_inc n fuel m = some r →
      m ≤ r ∧ BNode.splitRightBytes n r ≤ BTREE_PAGE_SIZE
      ∧ ∀ j, m ≤ j → j < r → BTREE_PAGE_SIZE < BNode.splitRightBytes n j := by
  intro fuel
  induction fuel with
  | zero => intro m r h; cases h
  | succ f ih =>
    intro m r h
    by_cases hc : BNode.splitRightBytes n m > BTREE_PAGE_SIZE
    · rw [show BNode.split2_inc n (f + 1) m = BNode.split2_inc n f (m + 1) from by
        simp [BNode.split2_inc, hc]] at h
      obtain ⟨h1, h2, h3⟩ := ih (m + 1) r h
      refine ⟨by omega, h2, fun j hj1 hj2 => ?_⟩
      rcases Nat.eq_or_lt_of_le hj1 with he | hlt
      · rw [← he]; exact hc
      · exact h3 j (by omega) hj2
    · rw [show BNode.split2_inc n (f + 1) m = some m from by
        simp [BNode.split2_inc, hc]] at h
      cases h
      exact ⟨le_refl _, by omega, fun j hj1 hj2 => by omega⟩

/-- The increment loop succeeds whenever a fitting index exists within the
available fuel. -/
theorem split2_inc_some (n : BNode) :
    ∀ fuel m p, m ≤ p → p < m + fuel →
      BNode.splitRightBytes n p ≤ BTREE_PAGE_SIZE →
      ∃ r, BNode.split2_inc n fuel m = some r ∧ r ≤ p := by
  intro fuel
  induction fuel with
  | zero => intro m p h1 h2 _; omega
  | succ f ih =>
    intro m p h1 h2 hp
    by_cases hc : BNode.splitRightBytes n m > BTREE_PAGE_SIZE
    · have hmp : m ≠ p := fun he => by rw [he] at hc; omega
      obtain ⟨r, hr, hrle⟩ := ih (m + 1) p (by omega) (by omega) hp
      exact ⟨r, by rw [show BNode.split2_inc n (f + 1) m = BNode.split2_inc n f (m + 1) from by
        simp [BNode.split2_inc, hc]]; exact hr, hrle⟩
    · exact ⟨m, by simp [BNode.split2_inc, hc], h1⟩

/-- Full success characterisation of `split2`: under well-formedness, cell
bounds, at least two keys and a valid type tag, `split2` returns the two
`appendFresh` halves cut at the first fitting index `m2` at or after the
decrement loop's exit. -/
theorem split2E_spec (n : BNode) (t : NodeType) (ls : Nat)
    (hwf : n.wf_offsets) (hbnd : n.cells_bounded)
    (hnk : 2 ≤ n.num_keys) (ht : n.b_type = some t)
    (hsz : n.num_bytes ≤ n.actual_size) :
    ∃ m2, n.split2E ls
        = some (appendFresh n t ls 0 m2,
                appendFresh n t BTREE_PAGE_SIZE m2 (n.num_keys - m2))
      ∧ 1 ≤ m2 ∧ m2 < n.num_keys
      ∧ BNode.splitRightBytes n m2 ≤ BTREE_PAGE_SIZE
      ∧ BNode.split2_dec n (n.num_keys / 2) ≤ m2
      ∧ (∀ j, BNode.split2_dec n (n.num_keys / 2) ≤ j → j < m2 →
          BTREE_PAGE_SIZE < BNode.splitRightBytes n j)
      ∧ BNode.splitLeftBytes n (BNode.split2_dec n (n.num_keys / 2)) ≤ BTREE_PAGE_SIZE := by
  have hH : HEADER = 4 := rfl
  have hPS : BTREE_PAGE_SIZE = 4096 := rfl
  have hMK : BTREE_MAX_KEY_SIZE = 1000 := rfl
  have hMV : BTREE_MAX_VAL_SIZE = 3000 := rfl
  -- the first cell alone fits a page
  have hfit1 : BNode.splitLeftBytes n 1 ≤ BTREE_PAGE_SIZE := by
    have h1 := splitLeftBytes_step n hwf 0 (by omega)
    simp only [Nat.zero_add] at h1
    have h2 := hbnd 0 (by omega)
    have h0 : BNode.splitLeftBytes n 0 = HEADER := by
      unfold BNode.splitLeftBytes BNode.get_offset
      simp
    omega
  obtain ⟨hm1a, hm1b, hm1c, hm1d⟩ := split2_dec_spec n hfit1 (n.num_keys / 2) (by omega)
  -- the cut before the last cell always has a fitting right half
  have hlast : BNode.splitRightBytes n (n.num_keys - 1) ≤ BTREE_PAGE_SIZE := by
    have hstep := splitLeftBytes_step n hwf (n.num_keys - 1) (by omega)
    rw [show n.num_keys - 1 + 1 = n.num_keys from by omega] at hstep
    have hb := hbnd (n.num_keys - 1) (by omega)
    have hmono := splitLeftBytes_mono n hwf (n.num_keys - 1) n.num_keys
      (by omega) (le_refl _)
    unfold BNode.splitRightBytes
    rw [num_bytes_eq_splitLeftBytes]
    omega
  obtain ⟨m2, hm2eq, hm2le⟩ := split2_inc_some n
    (n.num_keys + 1 - BNode.split2_dec n (n.num_keys / 2))
    (BNode.split2_dec n (n.num_keys / 2)) (n.num_keys - 1)
    (by omega) (by omega) hlast
  obtain ⟨hm2a, hm2b, hm2c⟩ := split2_inc_spec n _ _ _ hm2eq
  have hm2lt : m2 < n.num_keys := by omega
  have hm2pos : 1 ≤ m2 := by omega
  -- the right half's byte count
  have hrnb := appendFresh_spec n t BTREE_PAGE_SIZE m2 (n.num_keys - m2) hwf (by omega)
  have hrb : (appendFresh n t BTREE_PAGE_SIZE m2 (n.num_keys - m2)).num_bytes
      = BNode.splitRightBytes n m2 := by
    rw [hrnb.2.2.2.2.2.2.2.2]
    unfold BNode.splitRightBytes
    rw [num_bytes_eq_splitLeftBytes]
    unfold BNode.splitLeftBytes
    have o1 := wf_offsets_le n hwf m2 n.num_keys (by omega) (le_refl _)
    rw [show m2 + (n.num_keys - m2) = n.num_keys from by omega]
    omega
  refine ⟨m2, ?_, hm2pos, hm2lt, hm2b, hm2a, hm2c, hm1c⟩
  simp only [BNode.split2E]
  rw [if_neg (by omega : ¬ n.num_keys < 2), if_neg (by omega), if_neg (by omega),
    hm2eq]
  dsimp only
  rw [if_neg (by omega), ht]
  dsimp only
  rw [show (BNode.new_with_size t m2 ls).node_append_range n 0 0 m2
      = appendFresh n t ls 0 m2 from rfl]
  rw [show (BNode.new_with_size t (n.num_keys - m2) BTREE_PAGE_SIZE).node_append_range
        n 0 m2 (n.num_keys - m2)
      = appendFresh n t BTREE_PAGE_SIZE m2 (n.num_keys - m2) from rfl]
  rw [if_neg (by rw [hrb, hrnb.2.1]; omega), if_neg (by rw [hrb]; omega)]

/-- The cells of an `appendFresh` node are the copied slice of the old
node's cells. -/
theorem appendFresh_cells (old : BNode) (t : NodeType) (sz src cnt : Nat)
    (hwf : old.wf_offsets) (hsrc : src + cnt ≤ old.num_keys) :
    (appendFresh old t sz src cnt).cells
      = (List.range cnt).map (fun j => old.cell (src + j)) := by
  obtain ⟨hk, _, _, _, _, _, hcell, _, _⟩ := appendFresh_spec old t sz src cnt hwf hsrc
  unfold BNode.cells
  rw [hk]
  exact List.map_congr_left (fun j hj => hcell j (List.mem_range.mp hj))

/-- Splitting the cell list of a node at an interior index. -/
theorem cells_eq_append (n : BNode) (m : Nat) (hm : m ≤ n.num_keys) :
    n.cells = (List.range m).map n.cell
      ++ (List.range (n.num_keys - m)).map (fun j => n.cell (m + j)) := by
  unfold BNode.cells
  rw [show n.num_keys = m + (n.num_keys - m) from by omega, List.range_add,
    List.map_append, List.map_map]
  rw [show m + (n.num_keys - m) - m = n.num_keys - m from by omega]
  rfl

/-- C6, amended: for every node with at least 2 keys, a valid type tag, the
oversize buffer, well-formed offsets, cells within the key/value limits,
and `num_bytes ≤ 2 * PAGE_SIZE - 3`: if `num_bytes ≤ PAGE_SIZE`, `split3`
returns exactly that single node (re-capped to one page); otherwise it
returns 2 or 3 nodes, each with `num_bytes ≤ PAGE_SIZE`, which together
carry the original cells (pointers, keys and values) in the original
order.  At `num_bytes` between `2 * PAGE_SIZE - 2` and `2 * PAGE_SIZE` the
operation can instead panic, as the counterexample shows. -/
theorem C6_split3_amended (n : BNode) (t : NodeType)
    (hwf : n.wf_offsets) (hbnd : n.cells_bounded)
    (hnk : 2 ≤ n.num_keys)
    (ht : n.b_type = some t)
    (hcap : n.actual_size = 2 * BTREE_PAGE_SIZE)
    (hT : n.num_bytes ≤ 2 * BTREE_PAGE_SIZE - 3) :
    ∃ parts : List BNode, n.split3E = some (parts.length, parts)
      ∧ (n.num_bytes ≤ BTREE_PAGE_SIZE → parts = [n.resize_buffer BTREE_PAGE_SIZE])
      ∧ (BTREE_PAGE_SIZE < n.num_bytes → 2 ≤ parts.length)
      ∧ parts.length ≤ 3
      ∧ (∀ p ∈ parts, p.num_bytes ≤ BTREE_PAGE_SIZE)
      ∧ (parts.map BNode.cells).join = n.cells := by
  have hH : HEADER = 4 := rfl
  have hPS : BTREE_PAGE_SIZE = 4096 := rfl
  have hMK : BTREE_MAX_KEY_SIZE = 1000 := rfl
  have hMV : BTREE_MAX_VAL_SIZE = 3000 := rfl
  have hszok : ¬ n.num_bytes > n.actual_size := by omega
  by_cases hfits : n.num_bytes ≤ BTREE_PAGE_SIZE
  · refine ⟨[n.resize_buffer BTREE_PAGE_SIZE], ?_, fun _ => rfl,
      fun hgt => absurd hgt (by omega), by simp, ?_, ?_⟩
    · unfold BNode.split3E
      rw [if_neg hszok, if_pos hfits]
      rfl
    · intro p hp
      rcases List.mem_singleton.mp hp with rfl
      exact hfits
    · show ((n.resize_buffer BTREE_PAGE_SIZE).cells ++ []) = n.cells
      rw [List.append_nil]
      rfl
  · -- the oversize case: first split
    obtain ⟨m2, hs2eq, hm2pos, hm2lt, hm2rb, hm2ge, hm2first, hm1fit⟩ :=
      split2E_spec n t (2 * BTREE_PAGE_SIZE) hwf hbnd hnk ht (by omega)
    have hLspec := appendFresh_spec n t (2 * BTREE_PAGE_SIZE) 0 m2 hwf (by omega)
    obtain ⟨hLk, hLa, hLt, hLoff, hLklen, hLvlen, hLcell, hLwf, hLnb0⟩ := hLspec
    have hoff00 : n.get_offset 0 = 0 := rfl
    -- the left half's sizes agree with the prefix formula on `n`
    have hLnb : (appendFresh n t (2 * BTREE_PAGE_SIZE) 0 m2).num_bytes
        = n.splitLeftBytes m2 := by
      rw [hLnb0]
      unfold BNode.splitLeftBytes
      rw [show (0 : Nat) + m2 = m2 from by omega, hoff00]
      omega
    have hLBle : n.splitLeftBytes m2 ≤ n.num_bytes := by
      rw [num_bytes_eq_splitLeftBytes]
      exact splitLeftBytes_mono n hwf m2 n.num_keys (by omega) (le_refl _)
    have hLLB : ∀ m, m ≤ m2 →
        (appendFresh n t (2 * BTREE_PAGE_SIZE) 0 m2).splitLeftBytes m
          = n.splitLeftBytes m := by
      intro m hm
      unfold BNode.splitLeftBytes
      rw [hLoff m hm, show (0 : Nat) + m = m from by omega, hoff00]
      omega
    have hRspec := appendFresh_spec n t BTREE_PAGE_SIZE m2 (n.num_keys - m2) hwf
      (by omega)
    have hRnb : (appendFresh n t BTREE_PAGE_SIZE m2 (n.num_keys - m2)).num_bytes
        = n.splitRightBytes m2 := by
      rw [hRspec.2.2.2.2.2.2.2.2]
      unfold BNode.splitRightBytes
      rw [num_bytes_eq_splitLeftBytes]
      unfold BNode.splitLeftBytes
      have o1 := wf_offsets_le n hwf m2 n.num_keys (by omega) (le_refl _)
      rw [show m2 + (n.num_keys - m2) = n.num_keys from by omega]
      omega
    -- cells of the two halves
    have hLcells : (appendFresh n t (2 * BTREE_PAGE_SIZE) 0 m2).cells
        = (List.range m2).map n.cell := by
      rw [appendFresh_cells n t (2 * BTREE_PAGE_SIZE) 0 m2 hwf (by omega)]
      exact List.map_congr_left (fun j _ => by rw [show (0 : Nat) + j = j from by omega])
    have hRcells : (appendFresh n t BTREE_PAGE_SIZE m2 (n.num_keys - m2)).cells
        = (List.range (n.num_keys - m2)).map (fun j => n.cell (m2 + j)) :=
      appendFresh_cells n t BTREE_PAGE_SIZE m2 (n.num_keys - m2) hwf (by omega)
    have hsplitcells := cells_eq_append n m2 (by omega)
    by_cases hLfits : (appendFresh n t (2 * BTREE_PAGE_SIZE) 0 m2).num_bytes
        ≤ BTREE_PAGE_SIZE
    · -- two nodes suffice
      refine ⟨[(appendFresh n t (2 * BTREE_PAGE_SIZE) 0 m2).resize_buffer
          BTREE_PAGE_SIZE,
        appendFresh n t BTREE_PAGE_SIZE m2 (n.num_keys - m2)], ?_, ?_, ?_, ?_, ?_, ?_⟩
      · unfold BNode.split3E
        rw [if_neg hszok, if_neg (by omega), hs2eq]
        dsimp only
        rw [if_neg (by rw [hLa]; omega), if_pos hLfits]
        rfl
      · intro hle
        exact absurd hle hfits
      · intro _
        simp
      · simp
      · intro p hp
        rcases List.mem_cons.mp hp with rfl | hp2
        · exact hLfits
        · rcases List.mem_singleton.mp hp2 with rfl
          rw [hRnb]
          exact hm2rb
      · show (((appendFresh n t (2 * BTREE_PAGE_SIZE) 0 m2).resize_buffer
            BTREE_PAGE_SIZE).cells
          ++ ((appendFresh n t BTREE_PAGE_SIZE m2 (n.num_keys - m2)).cells ++ []))
          = n.cells
        rw [List.append_nil,
          show ((appendFresh n t (2 * BTREE_PAGE_SIZE) 0 m2).resize_buffer
            BTREE_PAGE_SIZE).cells
            = (appendFresh n t (2 * BTREE_PAGE_SIZE) 0 m2).cells from rfl,
          hLcells, hRcells, ← hsplitcells]
    · -- three nodes: re-split the left half
      have hLnk2 : 2 ≤ (appendFresh n t (2 * BTREE_PAGE_SIZE) 0 m2).num_keys := by
        rw [hLk]
        by_contra hm21
        have hm21e : m2 = 1 := by omega
        have hfit1 : n.splitLeftBytes 1 ≤ BTREE_PAGE_SIZE := by
          have h1 := splitLeftBytes_step n hwf 0 (by omega)
          simp only [Nat.zero_add] at h1
          have h2 := hbnd 0 (by omega)
          have h0 : n.splitLeftBytes 0 = HEADER := by
            unfold BNode.splitLeftBytes BNode.get_offset
            simp
          omega
        rw [hLnb, hm21e] at hLfits
        omega
      have hLbnd : (appendFresh n t (2 * BTREE_PAGE_SIZE) 0 m2).cells_bounded := by
        intro i hi
        rw [hLk] at hi
        rw [hLklen i hi, hLvlen i hi]
        exact hbnd (0 + i) (by omega)
      obtain ⟨m3, hs3eq, hm3pos, hm3lt, hm3rb, hm3ge, hm3first, hm31fit⟩ :=
        split2E_spec (appendFresh n t (2 * BTREE_PAGE_SIZE) 0 m2) t BTREE_PAGE_SIZE
          hLwf hLbnd hLnk2 hLt (by rw [hLa, hLnb]; omega)
      rw [hLk] at hm3lt
      -- the index just before the first cut fits on the left of the second cut
      have hprev : n.splitLeftBytes (m2 - 1) ≤ BTREE_PAGE_SIZE := by
        have hm1lt : n.split2_dec (n.num_keys / 2) < m2 := by
          rcases Nat.eq_or_lt_of_le hm2ge with he | hlt
          · exfalso
            apply hLfits
            rw [hLnb, ← he]
            exact hm1fit
          · exact hlt
        have hrbgt := hm2first (m2 - 1) (by omega) (by omega)
        unfold BNode.splitRightBytes at hrbgt
        rw [num_bytes_eq_splitLeftBytes] at hrbgt
        have hmono2 := splitLeftBytes_mono n hwf (m2 - 1) n.num_keys (by omega)
          (le_refl _)
        rw [← num_bytes_eq_splitLeftBytes] at hmono2 hrbgt
        omega
      -- the second cut lands at or before that index, so the piece fits
      have hm3le : m3 ≤ m2 - 1 := by omega
      have hLLfits : (appendFresh (appendFresh n t (2 * BTREE_PAGE_SIZE) 0 m2) t
          BTREE_PAGE_SIZE 0 m3).num_bytes ≤ BTREE_PAGE_SIZE := by
        have hspec3 := appendFresh_spec (appendFresh n t (2 * BTREE_PAGE_SIZE) 0 m2)
          t BTREE_PAGE_SIZE 0 m3 hLwf (by rw [hLk]; omega)
        have hnb3 : (appendFresh (appendFresh n t (2 * BTREE_PAGE_SIZE) 0 m2) t
            BTREE_PAGE_SIZE 0 m3).num_bytes
            = (appendFresh n t (2 * BTREE_PAGE_SIZE) 0 m2).splitLeftBytes m3 := by
          rw [hspec3.2.2.2.2.2.2.2.2]
          unfold BNode.splitLeftBytes
          rw [show (0 : Nat) + m3 = m3 from by omega,
            show (appendFresh n t (2 * BTREE_PAGE_SIZE) 0 m2).get_offset 0 = 0
              from rfl]
          omega
        rw [hnb3, hLLB m3 (by omega)]
        calc n.splitLeftBytes m3 ≤ n.splitLeftBytes (m2 - 1) :=
              splitLeftBytes_mono n hwf m3 (m2 - 1) hm3le (by omega)
          _ ≤ BTREE_PAGE_SIZE := hprev
      refine ⟨[appendFresh (appendFresh n t (2 * BTREE_PAGE_SIZE) 0 m2) t
          BTREE_PAGE_SIZE 0 m3,
        appendFresh (appendFresh n t (2 * BTREE_PAGE_SIZE) 0 m2) t BTREE_PAGE_SIZE m3
          ((appendFresh n t (2 * BTREE_PAGE_SIZE) 0 m2).num_keys - m3),
        appendFresh n t BTREE_PAGE_SIZE m2 (n.num_keys - m2)], ?_, ?_, ?_, ?_, ?_, ?_⟩
      · unfold BNode.split3E
        rw [if_neg hszok, if_neg (by omega), hs2eq]
        dsimp only
        rw [if_neg (by rw [hLa, hLnb]; omega), if_neg hLfits, hs3eq]
        dsimp only
        have hLLa : (appendFresh (appendFresh n t (2 * BTREE_PAGE_SIZE) 0 m2) t
            BTREE_PAGE_SIZE 0 m3).actual_size = BTREE_PAGE_SIZE :=
          (appendFresh_spec _ t BTREE_PAGE_SIZE 0 m3 hLwf (by rw [hLk]; omega)).2.1
        rw [if_neg (by rw [hLLa]; omega), if_neg (by omega)]
        rfl
      · intro hle
        omega
      · intro _
        simp
      · simp
      · intro p hp
        have hMIDnb : (appendFresh (appendFresh n t (2 * BTREE_PAGE_SIZE) 0 m2) t
            BTREE_PAGE_SIZE m3
            ((appendFresh n t (2 * BTREE_PAGE_SIZE) 0 m2).num_keys - m3)).num_bytes
            = (appendFresh n t (2 * BTREE_PAGE_SIZE) 0 m2).splitRightBytes m3 := by
          have hspec4 := appendFresh_spec (appendFresh n t (2 * BTREE_PAGE_SIZE) 0 m2)
            t BTREE_PAGE_SIZE m3
            ((appendFresh n t (2 * BTREE_PAGE_SIZE) 0 m2).num_keys - m3) hLwf
            (by omega)
          rw [hspec4.2.2.2.2.2.2.2.2]
          unfold BNode.splitRightBytes
          rw [num_bytes_eq_splitLeftBytes]
          unfold BNode.splitLeftBytes
          have o1 := wf_offsets_le (appendFresh n t (2 * BTREE_PAGE_SIZE) 0 m2) hLwf
            m3 (appendFresh n t (2 * BTREE_PAGE_SIZE) 0 m2).num_keys
            (by omega) (le_refl _)
          rw [show m3 + ((appendFresh n t (2 * BTREE_PAGE_SIZE) 0 m2).num_keys - m3)
              = (appendFresh n t (2 * BTREE_PAGE_SIZE) 0 m2).num_keys from by omega]
          omega
        rcases List.mem_cons.mp hp with rfl | hp2
        · exact hLLfits
        · rcases List.mem_cons.mp hp2 with rfl | hp3
          · rw [hMIDnb]
            exact hm3rb
          · rcases List.mem_singleton.mp hp3 with rfl
            rw [hRnb]
            exact hm2rb
      · show (appendFresh (appendFresh n t (2 * BTREE_PAGE_SIZE) 0 m2) t
            BTREE_PAGE_SIZE 0 m3).cells
          ++ ((appendFresh (appendFresh n t (2 * BTREE_PAGE_SIZE) 0 m2) t
            BTREE_PAGE_SIZE m3
            ((appendFresh n t (2 * BTREE_PAGE_SIZE) 0 m2).num_keys - m3)).cells
          ++ ((appendFresh n t BTREE_PAGE_SIZE m2 (n.num_keys - m2)).cells ++ []))
          = n.cells
        rw [List.append_nil]
        have hLL3 : (appendFresh (appendFresh n t (2 * BTREE_PAGE_SIZE) 0 m2) t
            BTREE_PAGE_SIZE 0 m3).cells
            ++ (appendFresh (appendFresh n t (2 * BTREE_PAGE_SIZE) 0 m2) t
            BTREE_PAGE_SIZE m3
            ((appendFresh n t (2 * BTREE_PAGE_SIZE) 0 m2).num_keys - m3)).cells
            = (appendFresh n t (2 * BTREE_PAGE_SIZE) 0 m2).cells := by
          rw [appendFresh_cells _ t BTREE_PAGE_SIZE 0 m3 hLwf (by rw [hLk]; omega),
            appendFresh_cells _ t BTREE_PAGE_SIZE m3 _ hLwf (by rw [hLk]; omega),
            cells_eq_append (appendFresh n t (2 * BTREE_PAGE_SIZE) 0 m2) m3
              (by rw [hLk]; omega)]
          have h1 : List.map
              (fun j => (appendFresh n t (2 * BTREE_PAGE_SIZE) 0 m2).cell (0 + j))
              (List.range m3)
              = List.map (appendFresh n t (2 * BTREE_PAGE_SIZE) 0 m2).cell
                (List.range m3) :=
            List.map_congr_left (fun j _ => by
              rw [show (0 : Nat) + j = j from by omega])
          rw [h1]
        rw [← List.append_assoc, hLL3, hLcells, hRcells, ← hsplitcells]

/-- C6, counterexample: a node with four cells, each within the
key/value limits, whose total size is exactly `2 * BTREE_PAGE_SIZE` and
which therefore fits the oversize buffer — exactly the situation the
claim covers — on which `split3` panics (the `assert!(left.num_bytes()
<= BTREE_PAGE_SIZE)` after the second split fails): every cut of the
first split leaves a left half of more than one page. -/
theorem C6_counterexample :
    wC6bad.wf_offsets ∧ wC6bad.cells_bounded
    ∧ 2 ≤ wC6bad.num_keys
    ∧ wC6bad.b_type = some .Leaf
    ∧ wC6bad.actual_size = 2 * BTREE_PAGE_SIZE
    ∧ wC6bad.num_bytes = 2 * BTREE_PAGE_SIZE
    ∧ wC6bad.split3E = none :=
  ⟨by unfold BNode.wf_offsets; decide, by unfold BNode.cells_bounded; decide,
   by decide, rfl, rfl, by decide, rfl⟩

/-- C6, witness for the amended theorem: the same four cells with the last
value 3 bytes shorter, total `2 * BTREE_PAGE_SIZE - 3`; `split3` succeeds
and returns 3 pages. -/
theorem C6_split3_amended_witness :
    (wC6good.wf_offsets ∧ wC6good.cells_bounded
     ∧ 2 ≤ wC6good.num_keys
     ∧ wC6good.b_type = some NodeType.Leaf
     ∧ wC6good.actual_size = 2 * BTREE_PAGE_SIZE
     ∧ wC6good.num_bytes ≤ 2 * BTREE_PAGE_SIZE - 3)
    ∧ (∃ parts : List BNode, wC6good.split3E = some (parts.length, parts)
      ∧ (wC6good.num_bytes ≤ BTREE_PAGE_SIZE →
          parts = [wC6good.resize_buffer BTREE_PAGE_SIZE])
      ∧ (BTREE_PAGE_SIZE < wC6good.num_bytes → 2 ≤ parts.length)
      ∧ parts.length ≤ 3
      ∧ (∀ p ∈ parts, p.num_bytes ≤ BTREE_PAGE_SIZE)
      ∧ (parts.map BNode.cells).join = wC6good.cells) :=
  ⟨⟨by unfold BNode.wf_offsets; decide, by unfold BNode.cells_bounded; decide,
    by decide, rfl, rfl, by decide⟩,
   C6_split3_amended wC6good NodeType.Leaf (by unfold BNode.wf_offsets; decide)
     (by unfold BNode.cells_bounded; decide) (by decide) rfl rfl (by decide)⟩

/-- C7, witness: the 5-key node with keys `[0]..[4]` and query `[2]`. -/
theorem C7_witness :
    (1 ≤ wC7.num_keys
     ∧ (∀ j, j < wC7.num_keys → ∀ i, i < j →
         bytesCmp (wC7.get_key i) (wC7.get_key j) = .lt)
     ∧ bytesCmp (wC7.get_key 0) [2] ≠ .gt)
    ∧ (wC7.node_lookup_le [2] < wC7.num_keys
       ∧ bytesCmp (wC7.get_key (wC7.node_lookup_le [2])) [2] ≠ .gt
       ∧ ∀ j, j < wC7.num_keys → bytesCmp (wC7.get_key j) [2] ≠ .gt →
           j ≤ wC7.node_lookup_le [2]) :=
  ⟨⟨by decide, by decide, by decide⟩,
   C7_node_lookup_le wC7 [2] (by decide) (by decide) (by decide)⟩

/-! ### Free-list lemmas (towards C9) -/

theorem assocGet_set_self {α : Type} (l : List (Nat × α)) (k : Nat) (v : α) :
    assocGet (assocSet l k v) k = some v := by
  simp [assocSet, assocGet]

theorem assocGet_set_ne {α : Type} (l : List (Nat × α)) (k k2 : Nat) (v : α)
    (h : k ≠ k2) :
    assocGet (assocSet l k v) k2 = assocGet l k2 := by
  simp [assocSet, assocGet, h]

theorem FLNode.new_tag (s nx : Nat) :
    readLE (FLNode.new s nx) 0 2 = FL_NODE_TYPE := by
  unfold FLNode.new
  rw [readLE_writeLE_disjoint _ 12 U64_SIZE nx 0 2 (Or.inl (by decide)),
      readLE_writeLE_disjoint _ 2 2 s 0 2 (Or.inl (by decide)),
      readLE_writeLE_same]
  decide

theorem FLNode.new_size (s nx : Nat) :
    FLNode.size (FLNode.new s nx) = s % 2 ^ 16 := by
  unfold FLNode.size FLNode.new
  rw [readLE_writeLE_disjoint _ 12 U64_SIZE nx 2 2 (Or.inl (by decide)),
      readLE_writeLE_same]
  norm_num

theorem FLNode.new_next (s nx : Nat) :
    FLNode.next (FLNode.new s nx) = nx % 2 ^ 64 := by
  unfold FLNode.next FLNode.new
  rw [readLE_writeLE_same]
  norm_num [U64_SIZE]

theorem FLNode.set_ptr_header {n : FLNode} {i p : Nat} {m : FLNode}
    (h : FLNode.set_ptr n i p = some m) :
    readLE m 0 2 = readLE n 0 2 ∧ FLNode.size m = FLNode.size n
      ∧ FLNode.next m = FLNode.next n := by
  unfold FLNode.set_ptr at h
  by_cases hi : i < FLNode.size n
  · rw [if_pos hi] at h
    injection h with h2
    subst h2
    refine ⟨?_, ?_, ?_⟩
    · exact readLE_writeLE_disjoint _ _ _ _ 0 2 (Or.inl (by unfold FL_HEADER; omega))
    · exact readLE_writeLE_disjoint _ _ _ _ 2 2 (Or.inl (by unfold FL_HEADER; omega))
    · exact readLE_writeLE_disjoint _ _ _ _ 12 U64_SIZE
        (Or.inl (by unfold FL_HEADER U64_SIZE; omega))
  · rw [if_neg hi] at h
    cases h

theorem set_ptrs_header : ∀ (ps : List Nat) (i : Nat) (n m : FLNode),
    set_ptrs i n ps = some m →
    readLE m 0 2 = readLE n 0 2 ∧ FLNode.size m = FLNode.size n
      ∧ FLNode.next m = FLNode.next n
  | [], _, n, m, h => by
    injection h with h2
    subst h2
    exact ⟨rfl, rfl, rfl⟩
  | p :: ps, i, n, m, h => by
    unfold set_ptrs at h
    cases hsp : FLNode.set_ptr n i p with
    | none => rw [hsp] at h; cases h
    | some n2 =>
      rw [hsp] at h
      have h1 := FLNode.set_ptr_header hsp
      have h2 := set_ptrs_header ps (i + 1) n2 m h
      exact ⟨h2.1.trans h1.1, h2.2.1.trans h1.2.1, h2.2.2.trans h1.2.2⟩

theorem FLNode.set_total_header (d : Bytes) (t : Nat) :
    readLE (FLNode.set_total d t) 0 2 = readLE d 0 2
    ∧ FLNode.size (FLNode.set_total d t) = FLNode.size d
    ∧ FLNode.next (FLNode.set_total d t) = FLNode.next d
    ∧ FLNode.fl_total (FLNode.set_total d t) = t % 2 ^ 64 := by
  unfold FLNode.set_total FLNode.size FLNode.next FLNode.fl_total
  refine ⟨?_, ?_, ?_, ?_⟩
  · exact readLE_writeLE_disjoint _ 4 U64_SIZE t 0 2 (Or.inl (by decide))
  · exact readLE_writeLE_disjoint _ 4 U64_SIZE t 2 2 (Or.inl (by decide))
  · exact readLE_writeLE_disjoint _ 4 U64_SIZE t 12 U64_SIZE (Or.inr (by decide))
  · rw [readLE_writeLE_same]
    norm_num [U64_SIZE]

theorem FLNode.fromBytes_of_tag {d : Bytes}
    (h : readLE d 0 2 = FL_NODE_TYPE) :
    FLNode.fromBytes d = some d := by
  unfold FLNode.fromBytes
  rw [if_pos h]

theorem page_get_reuse_self (pm : FLPageManager) (r : Nat) (node : FLNode) :
    (pm.page_reuse r node).page_get r = FLNode.fromBytes node := by
  unfold FLPageManager.page_reuse FLPageManager.page_get
  dsimp only
  rw [assocGet_set_self]
  rfl

theorem page_get_reuse_ne (pm : FLPageManager) (r : Nat) (node : FLNode)
    (q : Nat) (h : q ≠ r) :
    (pm.page_reuse r node).page_get q = pm.page_get q := by
  unfold FLPageManager.page_reuse FLPageManager.page_get
  dsimp only
  rw [assocGet_set_ne _ _ _ _ (fun he => h he.symm)]

theorem page_get_append_self (pm : FLPageManager) (node : FLNode) :
    (pm.page_append node).2.page_get (pm.page_append node).1
      = FLNode.fromBytes node := by
  unfold FLPageManager.page_append FLPageManager.page_get
  dsimp only
  rw [assocGet_set_self]
  rfl

theorem page_get_append_ne (pm : FLPageManager) (node : FLNode)
    (q : Nat) (h : q ≠ pm.flushed + pm.nappend) :
    (pm.page_append node).2.page_get q = pm.page_get q := by
  unfold FLPageManager.page_append FLPageManager.page_get
  dsimp only
  rw [assocGet_set_ne _ _ _ _ (fun he => h he.symm)]

theorem set_total_raw_spec (pm : FLPageManager) (p t : Nat) (nd : FLNode)
    (h : pm.page_get p = some nd) :
    ∃ pm2, pm.set_total_raw p t = some pm2
      ∧ pm2.page_get p = some (FLNode.set_total nd t)
      ∧ ∀ q, q ≠ p → pm2.page_get q = pm.page_get q := by
  unfold FLPageManager.page_get at h
  unfold FLPageManager.set_total_raw
  cases hup : assocGet pm.updates p with
  | none =>
    rw [hup] at h
    have htag : readLE (pm.mmapv p) 0 2 = FL_NODE_TYPE := by
      unfold FLNode.fromBytes at h
      by_cases ht : readLE (pm.mmapv p) 0 2 = FL_NODE_TYPE
      · exact ht
      · rw [if_neg ht] at h; cases h
    have hnd : pm.mmapv p = nd := by
      rw [FLNode.fromBytes_of_tag htag] at h
      injection h
    refine ⟨_, rfl, ?_, ?_⟩
    · unfold FLPageManager.page_get
      dsimp only
      rw [hup, if_pos rfl]
      rw [FLNode.fromBytes_of_tag (by rw [(FLNode.set_total_header _ t).1]; exact htag),
        hnd]
    · intro q hq
      unfold FLPageManager.page_get
      dsimp only
      rw [if_neg hq]
  | some od =>
    rw [hup] at h
    cases od with
    | none => exact Option.noConfusion h
    | some d =>
      have h2 : FLNode.fromBytes d = some nd := h
      have htag : readLE d 0 2 = FL_NODE_TYPE := by
        unfold FLNode.fromBytes at h2
        by_cases ht : readLE d 0 2 = FL_NODE_TYPE
        · exact ht
        · rw [if_neg ht] at h2; cases h2
      have hnd : d = nd := by
        rw [FLNode.fromBytes_of_tag htag] at h2
        injection h2
      refine ⟨_, rfl, ?_, ?_⟩
      · unfold FLPageManager.page_get
        dsimp only
        rw [assocGet_set_self]
        show FLNode.fromBytes (FLNode.set_total d t) = _
        rw [FLNode.fromBytes_of_tag (by rw [(FLNode.set_total_header _ t).1]; exact htag),
          hnd]
      · intro q hq
        unfold FLPageManager.page_get
        dsimp only
        rw [assocGet_set_ne _ _ _ _ (fun he => hq he.symm)]

theorem flChainPtrs_zero_head (pm : FLPageManager) (cf : Nat) :
    flChainPtrs pm cf 0 = some [] := by
  cases cf <;> simp [flChainPtrs]

theorem flChainSizes_zero_head (pm : FLPageManager) (cf : Nat) :
    flChainSizes pm cf 0 = some [] := by
  cases cf <;> simp [flChainSizes]

theorem flChainPtrs_head_mem {pm : FLPageManager} {cf h : Nat} {l : List Nat}
    (hc : flChainPtrs pm cf h = some l) (h0 : h ≠ 0) : h ∈ l := by
  cases cf with
  | zero =>
    unfold flChainPtrs at hc
    rw [if_neg h0] at hc
    cases hc
  | succ cf =>
    unfold flChainPtrs at hc
    rw [if_neg h0] at hc
    cases hg : pm.page_get h with
    | none => rw [hg] at hc; cases hc
    | some node =>
      rw [hg] at hc
      simp only [Option.some_bind] at hc
      cases hrest : flChainPtrs pm cf (FLNode.next node) with
      | none => rw [hrest] at hc; cases hc
      | some rest =>
        rw [hrest] at hc
        injection hc with hl
        rw [← hl]
        exact List.mem_cons_self _ _

/-- Frame rule: a page-manager change that leaves every page of the chain
untouched leaves the chain (pointers and sizes) untouched. -/
theorem chain_frame (pm pm2 : FLPageManager) :
    ∀ (cf : Nat) (h : Nat) (l : List Nat),
      flChainPtrs pm cf h = some l →
      (∀ q ∈ l, pm2.page_get q = pm.page_get q) →
      flChainPtrs pm2 cf h = some l
        ∧ flChainSizes pm2 cf h = flChainSizes pm cf h
  | 0, h, l, hc, _ => by
    by_cases h0 : h = 0
    · subst h0
      rw [flChainPtrs_zero_head] at hc
      rw [flChainPtrs_zero_head, flChainSizes_zero_head, flChainSizes_zero_head]
      exact ⟨hc, rfl⟩
    · unfold flChainPtrs at hc
      rw [if_neg h0] at hc
      cases hc
  | cf + 1, h, l, hc, hq => by
    by_cases h0 : h = 0
    · subst h0
      rw [flChainPtrs_zero_head] at hc
      rw [flChainPtrs_zero_head, flChainSizes_zero_head, flChainSizes_zero_head]
      exact ⟨hc, rfl⟩
    · unfold flChainPtrs at hc
      rw [if_neg h0] at hc
      cases hg : pm.page_get h with
      | none => rw [hg] at hc; cases hc
      | some node =>
        rw [hg] at hc
        simp only [Option.some_bind] at hc
        cases hrest : flChainPtrs pm cf (FLNode.next node) with
        | none => rw [hrest] at hc; cases hc
        | some rest =>
          rw [hrest] at hc
          injection hc with hl
          have hlm : l = h :: rest := hl.symm
          subst hlm
          have hsame : pm2.page_get h = pm.page_get h :=
            hq h (List.mem_cons_self _ _)
          have ih := chain_frame pm pm2 cf (FLNode.next node) rest hrest
            (fun q hqm => hq q (List.mem_cons_of_mem _ hqm))
          constructor
          · unfold flChainPtrs
            rw [if_neg h0, hsame, hg]
            simp only [Option.some_bind]
            rw [ih.1]
            rfl
          · unfold flChainSizes
            rw [if_neg h0, if_neg h0, hsame, hg]
            simp only [Option.some_bind]
            rw [ih.2]

/-- A page-manager change that preserves the `size` and `next` fields of
every readable page preserves the chain sizes. -/
theorem chain_congr_header (pm pm2 : FLPageManager)
    (hrel : ∀ q, pm2.page_get q = pm.page_get q ∨
      ∃ na nb, pm.page_get q = some na ∧ pm2.page_get q = some nb
        ∧ FLNode.size nb = FLNode.size na ∧ FLNode.next nb = FLNode.next na) :
    ∀ (cf : Nat) (h : Nat), flChainSizes pm2 cf h = flChainSizes pm cf h
  | 0, _ => rfl
  | cf + 1, h => by
    by_cases h0 : h = 0
    · subst h0
      rw [flChainSizes_zero_head, flChainSizes_zero_head]
    · unfold flChainSizes
      rw [if_neg h0, if_neg h0]
      rcases hrel h with he | ⟨na, nb, ha, hb, hs, hn⟩
      · rw [he]
        cases hg : pm.page_get h with
        | none => rfl
        | some node =>
          simp only [Option.some_bind]
          rw [chain_congr_header pm pm2 hrel cf (FLNode.next node)]
      · rw [ha, hb]
        simp only [Option.some_bind]
        rw [hs, hn, chain_congr_header pm pm2 hrel cf (FLNode.next na)]

/-- What the head-recycling loop of `update` leaves behind: the head of a
suffix of the original chain, with the running `total` equal to the sum of
the remaining `size` fields. -/
theorem update_loop_chain : ∀ (fuel : Nat) (pm : FLPageManager)
    (head popn : Nat) (freed reuse : List Nat) (total : Int)
    (cf : Nat) (sizes cptrs : List Nat),
    flChainSizes pm cf head = some sizes →
    flChainPtrs pm cf head = some cptrs →
    total = (sizes.sum : Int) →
    ∀ r : Nat × List Nat × List Nat × Int,
    update_loop pm fuel head popn freed reuse total = some r →
    ∃ cf2 sizes2 cptrs2, cf2 ≤ cf
      ∧ flChainSizes pm cf2 r.1 = some sizes2
      ∧ flChainPtrs pm cf2 r.1 = some cptrs2
      ∧ r.2.2.2 = (sizes2.sum : Int)
      ∧ sizes2.sum ≤ sizes.sum
      ∧ (∀ q ∈ cptrs2, q ∈ cptrs)
  | 0, _, _, _, _, _, _, _, _, _, _, _, _, _, hrun => by cases hrun
  | fuel + 1, pm, head, popn, freed, reuse, total, cf, sizes, cptrs,
      hch, hcp, htt, r, hrun => by
    unfold update_loop at hrun
    by_cases hcond : head ≠ 0
        ∧ reuse.length * MAX_FREE_LIST_IN_PAGE < freed.length
    · rw [if_pos hcond] at hrun
      have h0 : head ≠ 0 := hcond.1
      cases cf with
      | zero =>
        unfold flChainSizes at hch
        rw [if_neg h0] at hch
        cases hch
      | succ cf =>
        unfold flChainSizes at hch
        unfold flChainPtrs at hcp
        rw [if_neg h0] at hch hcp
        cases hg : pm.page_get head with
        | none => rw [hg] at hch; cases hch
        | some node =>
          rw [hg] at hch hcp
          simp only [Option.some_bind] at hch hcp
          cases hrest : flChainSizes pm cf (FLNode.next node) with
          | none => rw [hrest] at hch; cases hch
          | some rest =>
            cases hprest : flChainPtrs pm cf (FLNode.next node) with
            | none => rw [hprest] at hcp; cases hcp
            | some prest =>
              rw [hrest] at hch
              rw [hprest] at hcp
              injection hch with hsz
              injection hcp with hpz
              have hsizes : sizes = FLNode.size node :: rest := hsz.symm
              have hcps : cptrs = head :: prest := hpz.symm
              subst hsizes
              subst hcps
              rw [hg] at hrun
              simp only [Option.some_bind] at hrun
              have htt2 : total - (FLNode.size node : Int)
                  = (rest.sum : Int) := by
                rw [htt]
                simp [List.sum_cons]
              by_cases hsp : FLNode.size node ≤ popn
              · rw [if_pos hsp] at hrun
                obtain ⟨cf2, s2, c2, hle, b1, b2, b3, b4, b5⟩ :=
                  update_loop_chain fuel pm (FLNode.next node)
                    (popn - FLNode.size node) (freed ++ [head]) reuse
                    (total - (FLNode.size node : Int)) cf rest prest
                    hrest hprest htt2 r hrun
                exact ⟨cf2, s2, c2, Nat.le_succ_of_le hle, b1, b2, b3,
                  by simp [List.sum_cons]; omega,
                  fun q hq => List.mem_cons_of_mem _ (b5 q hq)⟩
              · rw [if_neg hsp] at hrun
                cases hrl : reuse_loop node (freed.length + 1)
                    (FLNode.size node - popn) reuse with
                | none => rw [hrl] at hrun; cases hrun
                | some rl =>
                  rw [hrl] at hrun
                  simp only [Option.some_bind] at hrun
                  cases hpb : ptrs_below node rl.2 with
                  | none => rw [hpb] at hrun; cases hrun
                  | some ps =>
                    rw [hpb] at hrun
                    simp only [Option.some_bind] at hrun
                    obtain ⟨cf2, s2, c2, hle, b1, b2, b3, b4, b5⟩ :=
                      update_loop_chain fuel pm (FLNode.next node) 0
                        ((freed ++ [head]) ++ ps) rl.1
                        (total - (FLNode.size node : Int)) cf rest prest
                        hrest hprest htt2 r hrun
                    exact ⟨cf2, s2, c2, Nat.le_succ_of_le hle, b1, b2, b3,
                      by simp [List.sum_cons]; omega,
                      fun q hq => List.mem_cons_of_mem _ (b5 q hq)⟩
    · rw [if_neg hcond] at hrun
      injection hrun with hr
      refine ⟨cf, sizes, cptrs, le_refl _, ?_, ?_, ?_, le_refl _, fun q hq => hq⟩
      · rw [← hr]; exact hch
      · rw [← hr]; exact hcp
      · rw [← hr]; exact htt

/-- What the `push` loop produces: the freshly written nodes prepended to
the chain it started from, their `size` fields summing to the number of
pushed pointers. -/
theorem push_loopF_chain (fuel : Nat) : ∀ (pm : FLPageManager)
    (head : Nat) (freed reuse : List Nat)
    (cf : Nat) (sizes cptrs : List Nat),
    flChainSizes pm cf head = some sizes →
    flChainPtrs pm cf head = some cptrs →
    (∀ x ∈ reuse, x ∉ cptrs ∧ x ≠ 0 ∧ x < pm.flushed) →
    reuse.Nodup →
    (∀ q ∈ cptrs, q < pm.flushed + pm.nappend) →
    0 < pm.flushed →
    pm.flushed + pm.nappend + freed.length < 2 ^ 64 →
    head < 2 ^ 64 →
    ∀ res : Nat × FLPageManager × List Nat,
    push_loopF fuel pm head freed reuse = some res →
    ∃ cf2 ns np, flChainSizes res.2.1 cf2 res.1 = some (ns ++ sizes)
      ∧ flChainPtrs res.2.1 cf2 res.1 = some (np ++ cptrs)
      ∧ ns.sum = freed.length
      ∧ (freed = [] → res.1 = head ∧ res.2.1 = pm) := by
  induction fuel with
  | zero =>
    intro pm head freed reuse cf sizes cptrs _ _ _ _ _ _ _ _ res hrun
    cases hrun
  | succ fuel ih =>
    intro pm head freed reuse cf sizes cptrs hch hcp hre hrd hcb hfl hbd hh
      res hrun
    unfold push_loopF at hrun
    by_cases hemp : freed.isEmpty
    · rw [if_pos hemp] at hrun
      injection hrun with hr
      have hfe : freed = [] := by
        cases freed with
        | nil => rfl
        | cons a l => cases hemp
      subst hr
      refine ⟨cf, [], [], by simpa using hch, by simpa using hcp,
        by simp [hfe], fun _ => ⟨rfl, rfl⟩⟩
    · rw [if_neg hemp] at hrun
      have hfne : freed ≠ [] := by
        intro he
        subst he
        exact hemp rfl
      have hlp : 0 < freed.length := List.length_pos.mpr hfne
      cases hsp : set_ptrs 0
          (FLNode.new (min freed.length MAX_FREE_LIST_IN_PAGE) head)
          (freed.take (min freed.length MAX_FREE_LIST_IN_PAGE)) with
      | none => rw [hsp] at hrun; cases hrun
      | some node =>
        rw [hsp] at hrun
        simp only [Option.some_bind] at hrun
        have hhd := set_ptrs_header _ _ _ _ hsp
        have hM : MAX_FREE_LIST_IN_PAGE = 509 := by decide
        have hminle : min freed.length MAX_FREE_LIST_IN_PAGE < 2 ^ 16 := by
          have h1 : min freed.length MAX_FREE_LIST_IN_PAGE
              ≤ MAX_FREE_LIST_IN_PAGE := min_le_right _ _
          omega
        have hszpos : 1 ≤ min freed.length MAX_FREE_LIST_IN_PAGE := by omega
        have hsize : FLNode.size node
            = min freed.length MAX_FREE_LIST_IN_PAGE := by
          rw [hhd.2.1, FLNode.new_size]
          exact Nat.mod_eq_of_lt hminle
        have hnext : FLNode.next node = head := by
          rw [hhd.2.2, FLNode.new_next]
          exact Nat.mod_eq_of_lt hh
        have htagn : readLE node 0 2 = FL_NODE_TYPE := by
          rw [hhd.1]
          exact FLNode.new_tag _ _
        cases reuse with
        | cons r rs =>
          have hrprop := hre r (List.mem_cons_self _ _)
          have hr0 : r ≠ 0 := hrprop.2.1
          have hrcp : r ∉ cptrs := hrprop.1
          have hrfl : r < pm.flushed := hrprop.2.2
          have hframe := chain_frame pm (pm.page_reuse r node) cf head cptrs
            hcp (fun q hq =>
              page_get_reuse_ne pm r node q (fun he => hrcp (he ▸ hq)))
          have hgetr : (pm.page_reuse r node).page_get r = some node := by
            rw [page_get_reuse_self]
            exact FLNode.fromBytes_of_tag htagn
          have hch2 : flChainSizes (pm.page_reuse r node) (cf + 1) r
              = some (FLNode.size node :: sizes) := by
            unfold flChainSizes
            rw [if_neg hr0, hgetr]
            simp only [Option.some_bind]
            rw [hnext, hframe.2, hch]
            rfl
          have hcp2 : flChainPtrs (pm.page_reuse r node) (cf + 1) r
              = some (r :: cptrs) := by
            unfold flChainPtrs
            rw [if_neg hr0, hgetr]
            simp only [Option.some_bind]
            rw [hnext, hframe.1]
            rfl
          have hre2 : ∀ x ∈ rs, x ∉ r :: cptrs ∧ x ≠ 0
              ∧ x < (pm.page_reuse r node).flushed := by
            intro x hx
            have hp := hre x (List.mem_cons_of_mem _ hx)
            refine ⟨?_, hp.2.1, hp.2.2⟩
            intro hmem
            rcases List.mem_cons.mp hmem with he | hm
            · exact (List.nodup_cons.mp hrd).1 (he ▸ hx)
            · exact hp.1 hm
          have hcb2 : ∀ q ∈ r :: cptrs,
              q < (pm.page_reuse r node).flushed
                + (pm.page_reuse r node).nappend := by
            intro q hq
            rcases List.mem_cons.mp hq with he | hm
            · subst he
              show q < pm.flushed + pm.nappend
              omega
            · exact hcb q hm
          have hbd2 : (pm.page_reuse r node).flushed
              + (pm.page_reuse r node).nappend
              + (freed.drop (min freed.length MAX_FREE_LIST_IN_PAGE)).length
              < 2 ^ 64 := by
            show pm.flushed + pm.nappend + _ < 2 ^ 64
            rw [List.length_drop]
            omega
          obtain ⟨cf2, ns, np, b1, b2, b3, b4⟩ :=
            ih (pm.page_reuse r node) r
              (freed.drop (min freed.length MAX_FREE_LIST_IN_PAGE)) rs
              (cf + 1) (FLNode.size node :: sizes) (r :: cptrs)
              hch2 hcp2 hre2 (List.nodup_cons.mp hrd).2 hcb2 hfl hbd2
              (by omega) res hrun
          refine ⟨cf2, ns ++ [FLNode.size node], np ++ [r], ?_, ?_, ?_, ?_⟩
          · rw [List.append_assoc, List.singleton_append]
            exact b1
          · rw [List.append_assoc, List.singleton_append]
            exact b2
          · rw [List.sum_append, b3, List.length_drop, hsize]
            simp only [List.sum_cons, List.sum_nil]
            omega
          · intro he
            exact absurd he hfne
        | nil =>
          have hp0 : pm.flushed + pm.nappend ≠ 0 := by omega
          have hframe := chain_frame pm (pm.page_append node).2 cf head cptrs
            hcp (fun q hq =>
              page_get_append_ne pm node q (by have := hcb q hq; omega))
          have hgetp : (pm.page_append node).2.page_get
              (pm.flushed + pm.nappend) = some node := by
            have h1 := page_get_append_self pm node
            rw [FLNode.fromBytes_of_tag htagn] at h1
            exact h1
          have hch2 : flChainSizes (pm.page_append node).2 (cf + 1)
              (pm.flushed + pm.nappend) = some (FLNode.size node :: sizes) := by
            unfold flChainSizes
            rw [if_neg hp0, hgetp]
            simp only [Option.some_bind]
            rw [hnext, hframe.2, hch]
            rfl
          have hcp2 : flChainPtrs (pm.page_append node).2 (cf + 1)
              (pm.flushed + pm.nappend)
              = some ((pm.flushed + pm.nappend) :: cptrs) := by
            unfold flChainPtrs
            rw [if_neg hp0, hgetp]
            simp only [Option.some_bind]
            rw [hnext, hframe.1]
            rfl
          have hcb2 : ∀ q ∈ (pm.flushed + pm.nappend) :: cptrs,
              q < (pm.page_append node).2.flushed
                + (pm.page_append node).2.nappend := by
            intro q hq
            show q < pm.flushed + (pm.nappend + 1)
            rcases List.mem_cons.mp hq with he | hm
            · omega
            · have := hcb q hm
              omega
          have hbd2 : (pm.page_append node).2.flushed
              + (pm.page_append node).2.nappend
              + (freed.drop (min freed.length MAX_FREE_LIST_IN_PAGE)).length
              < 2 ^ 64 := by
            show pm.flushed + (pm.nappend + 1) + _ < 2 ^ 64
            rw [List.length_drop]
            omega
          obtain ⟨cf2, ns, np, b1, b2, b3, b4⟩ :=
            ih (pm.page_append node).2 (pm.flushed + pm.nappend)
              (freed.drop (min freed.length MAX_FREE_LIST_IN_PAGE)) []
              (cf + 1) (FLNode.size node :: sizes)
              ((pm.flushed + pm.nappend) :: cptrs)
              hch2 hcp2 (fun x hx => absurd hx (List.not_mem_nil x))
              List.nodup_nil hcb2 hfl hbd2 (by omega) res hrun
          refine ⟨cf2, ns ++ [FLNode.size node],
            np ++ [pm.flushed + pm.nappend], ?_, ?_, ?_, ?_⟩
          · rw [List.append_assoc, List.singleton_append]
            exact b1
          · rw [List.append_assoc, List.singleton_append]
            exact b2
          · rw [List.sum_append, b3, List.length_drop, hsize]
            simp only [List.sum_cons, List.sum_nil]
            omega
          · intro he
            exact absurd he hfne

/-- C9: starting from a state that satisfies the free-list invariant (the
`next`-chain from the head is readable and `total()` returns the sum of
the `size` fields along it), every completed `FreeList::update` — for any
pop count and any batch of freed pages, provided the pages the loop
salvages for reuse are distinct non-zero flushed pages off the chain and
the sizes stay within the 63/64-bit bounds — re-establishes the
invariant: `total()` of the new state equals the sum of the `size` fields
along the new chain, and is 0 when the new head is 0. -/
theorem C9_update_invariant (fl : FreeListS) (popn : Nat) (freed : List Nat)
    (lf cf : Nat) (sizes cptrs : List Nat) (fl2 : FreeListS)
    (hch : flChainSizes fl.pm cf fl.head = some sizes)
    (hcp : flChainPtrs fl.pm cf fl.head = some cptrs)
    (hcb : ∀ q ∈ cptrs, q < fl.pm.flushed)
    (hfl : 0 < fl.pm.flushed)
    (hinv : FreeListS.total fl = some sizes.sum)
    (hside : ∀ r : Nat × List Nat × List Nat × Int,
      update_loop fl.pm lf fl.head popn freed [] (sizes.sum : Int) = some r →
      r.2.2.1.Nodup
      ∧ (∀ x ∈ r.2.2.1, x ∉ cptrs ∧ x ≠ 0 ∧ x < fl.pm.flushed)
      ∧ sizes.sum + r.2.1.length < 2 ^ 63
      ∧ fl.pm.flushed + fl.pm.nappend + r.2.1.length < 2 ^ 64)
    (hrun : fl.update popn freed lf = some fl2) :
    ∃ cf2, flInvariant fl2 cf2 := by
  unfold FreeListS.update at hrun
  rw [hinv] at hrun
  simp only [Option.some_bind] at hrun
  by_cases hple : popn ≤ sizes.sum
  · rw [if_pos hple] at hrun
    by_cases hz : popn = 0 ∧ freed = []
    · rw [if_pos hz] at hrun
      injection hrun with hr
      exact ⟨cf, sizes, by rw [← hr]; exact hch, by rw [← hr]; exact hinv⟩
    · rw [if_neg hz] at hrun
      cases hml : update_loop fl.pm lf fl.head popn freed []
          (sizes.sum : Int) with
      | none => rw [hml] at hrun; cases hrun
      | some r =>
        obtain ⟨h1, f1, r1, t1⟩ := r
        rw [hml] at hrun
        simp only [Option.some_bind] at hrun
        obtain ⟨hnd, hxp, hb63, hb64⟩ := hside (h1, f1, r1, t1) hml
        dsimp only at hnd hxp hb63 hb64
        obtain ⟨cf', sizes', cptrs', hle', hch', hcp', htt', hsums, hsub⟩ :=
          update_loop_chain lf fl.pm fl.head popn freed [] (sizes.sum : Int)
            cf sizes cptrs hch hcp rfl (h1, f1, r1, t1) hml
        dsimp only at hch' hcp' htt'
        by_cases hassert : f1.length ≤ r1.length * MAX_FREE_LIST_IN_PAGE
            ∨ h1 = 0
        · rw [if_pos hassert] at hrun
          cases hpu : FreeListS.push { head := h1, pm := fl.pm } f1 r1
              (f1.length + 1) with
          | none => rw [hpu] at hrun; cases hrun
          | some flp =>
            rw [hpu] at hrun
            simp only [Option.some_bind] at hrun
            have h0t : (0 : Int) ≤ t1 + (f1.length : Int) := by
              rw [htt']
              positivity
            rw [if_pos h0t] at hrun
            unfold FreeListS.push at hpu
            cases hpl : push_loopF (f1.length + 1) fl.pm h1 f1 r1 with
            | none => rw [hpl] at hpu; cases hpu
            | some pres =>
              rw [hpl] at hpu
              simp only [Option.some_bind] at hpu
              by_cases hru : pres.2.2 = []
              · rw [if_pos hru] at hpu
                injection hpu with hflp
                subst hflp
                dsimp only at hrun
                have hh1 : h1 < 2 ^ 64 := by
                  by_cases h10 : h1 = 0
                  · subst h10
                    omega
                  · have hm := flChainPtrs_head_mem hcp' h10
                    have := hcb h1 (hsub h1 hm)
                    omega
                obtain ⟨cf2, ns, np, c1, c2, c3, c4⟩ :=
                  push_loopF_chain (f1.length + 1) fl.pm h1 f1 r1 cf' sizes'
                    cptrs' hch' hcp'
                    (fun x hx => ⟨fun hmem => (hxp x hx).1 (hsub x hmem),
                      (hxp x hx).2.1, (hxp x hx).2.2⟩)
                    hnd
                    (fun q hq => by have := hcb q (hsub q hq); omega)
                    hfl hb64 hh1 pres hpl
                by_cases hh0 : pres.1 = 0
                · cases hst : FLPageManager.set_total_raw pres.2.1 pres.1
                      ((t1 + (f1.length : Int)).toNat) with
                  | none => rw [hst] at hrun; cases hrun
                  | some pm3 =>
                    rw [hst] at hrun
                    simp only [Option.map_some'] at hrun
                    injection hrun with hfl2
                    refine ⟨0, [], ?_, ?_⟩
                    · show flChainSizes fl2.pm 0 fl2.head = some []
                      rw [← hfl2]
                      dsimp only
                      rw [hh0]
                      exact flChainSizes_zero_head _ 0
                    · show FreeListS.total fl2 = some (List.sum [])
                      rw [← hfl2]
                      unfold FreeListS.total
                      dsimp only
                      rw [if_pos hh0]
                      rfl
                · obtain ⟨nd, hndget⟩ :
                      ∃ nd, pres.2.1.page_get pres.1 = some nd := by
                    cases cf2 with
                    | zero =>
                      unfold flChainSizes at c1
                      rw [if_neg hh0] at c1
                      cases c1
                    | succ cf3 =>
                      unfold flChainSizes at c1
                      rw [if_neg hh0] at c1
                      cases hg : pres.2.1.page_get pres.1 with
                      | none => rw [hg] at c1; cases c1
                      | some nd => exact ⟨nd, rfl⟩
                  obtain ⟨pm3, hsteq, hget3, hframe3⟩ :=
                    set_total_raw_spec pres.2.1 pres.1
                      ((t1 + (f1.length : Int)).toNat) nd hndget
                  rw [hsteq] at hrun
                  simp only [Option.map_some'] at hrun
                  injection hrun with hfl2
                  have hrel : ∀ q, pm3.page_get q = pres.2.1.page_get q ∨
                      ∃ na nb, pres.2.1.page_get q = some na
                        ∧ pm3.page_get q = some nb
                        ∧ FLNode.size nb = FLNode.size na
                        ∧ FLNode.next nb = FLNode.next na := by
                    intro q
                    by_cases hq : q = pres.1
                    · subst hq
                      exact Or.inr ⟨nd, _, hndget, hget3,
                        (FLNode.set_total_header nd _).2.1,
                        (FLNode.set_total_header nd _).2.2.1⟩
                    · exact Or.inl (hframe3 q hq)
                  have hch3 : flChainSizes pm3 cf2 pres.1
                      = some (ns ++ sizes') := by
                    rw [chain_congr_header pres.2.1 pm3 hrel cf2 pres.1]
                    exact c1
                  have hT : ((t1 + (f1.length : Int)).toNat)
                      = (ns ++ sizes').sum := by
                    rw [List.sum_append, c3]
                    omega
                  refine ⟨cf2, ns ++ sizes', ?_, ?_⟩
                  · show flChainSizes fl2.pm cf2 fl2.head = _
                    rw [← hfl2]
                    dsimp only
                    exact hch3
                  · show FreeListS.total fl2 = some ((ns ++ sizes').sum)
                    rw [← hfl2]
                    unfold FreeListS.total
                    dsimp only
                    rw [if_neg hh0, hget3]
                    simp only [Option.some_bind]
                    rw [(FLNode.set_total_header nd _).2.2.2]
                    rw [if_pos (by omega)]
                    rw [Nat.mod_eq_of_lt (by omega), hT]
              · rw [if_neg hru] at hpu
                cases hpu
        · rw [if_neg hassert] at hrun
          cases hrun
  · rw [if_neg hple] at hrun
    cases hrun

/-- C9, witness: a one-node free list (sizes `[2]`, page 5), updated with
`popn = 1` and freed pages 7 and 8; the update pops the old head,
salvages page 3 for the rebuilt node, and the invariant holds again. -/
theorem C9_witness :
    (flChainSizes wC9fl.pm 1 wC9fl.head = some [2]
     ∧ flChainPtrs wC9fl.pm 1 wC9fl.head = some [5]
     ∧ (∀ q ∈ [5], q < wC9fl.pm.flushed)
     ∧ 0 < wC9fl.pm.flushed
     ∧ FreeListS.total wC9fl = some (List.sum [2])
     ∧ wC9fl.update 1 [7, 8] 10 = some wC9res)
    ∧ ∃ cf2, flInvariant wC9res cf2 := by
  constructor
  · exact ⟨by decide, by decide, by decide, by decide, by decide, rfl⟩
  · exact C9_update_invariant wC9fl 1 [7, 8] 10 1 [2] [5] wC9res
      (by decide) (by decide) (by decide) (by decide) (by decide)
      (fun r hr => by
        rw [show update_loop wC9fl.pm 10 wC9fl.head 1 [7, 8] []
            ((List.sum [2] : Nat) : Int)
            = some ((0 : Nat), ([7, 8, 5] : List Nat), ([3] : List Nat),
              (0 : Int)) from by decide] at hr
        injection hr with h2
        subst h2
        exact ⟨by decide, by decide, by decide, by decide⟩)
      rfl

end DBV
